import Mathlib

/-!
Verification of the input-resolution layer of the konflux-build-cli repository:
build-file discovery with containment (pkg/common/dockerfile.go), secret-directory
resolution (pkg/commands/build.go), registry credential selection (pkg/common auth
helpers) and the structured package-input transformation (prefetch_dependencies).

Paths are modelled shallowly: an absolute path is a list of segments, a segment is
a list of characters.  `filepath.Join` cleans the joined path, so joining is
concatenation followed by the lexical clean; `filepath.EvalSymlinks`, `os.ReadDir`
and `os.Stat` are abstract filesystem oracles supplied as structure fields.
-/

/-- One path segment, as the list of its characters. -/
abbrev Seg := List Char

/-- An absolute filesystem path: the list of its segments (root is `[]`). -/
abbrev GoPath := List Seg

/-- Shorthand turning a string literal into a segment / character list. -/
def sg (s : String) : Seg := s.toList

/- ## Path containment primitive (pkg/common/dockerfile.go) -/

/-- One step of Go `path/filepath.Clean` on a rooted path: empty and `.` segments
are dropped, `..` pops the previous segment (and is dropped at the root). -/
def cleanAbsStep (acc : GoPath) (s : Seg) : GoPath :=
  if s = [] ∨ s = ['.'] then acc
  else if s = ['.', '.'] then acc.dropLast
  else acc ++ [s]

/-- Go `filepath.Clean` restricted to rooted (absolute) paths, on segment lists. -/
def cleanAbs (p : GoPath) : GoPath := p.foldl cleanAbsStep []

/-- The segment-wise common-prefix stripping performed by Go `filepath.Rel`:
returns the suffixes of base and target after their shared leading segments. -/
def stripCommon : GoPath → GoPath → GoPath × GoPath
  | b :: bs, p :: ps => if b = p then stripCommon bs ps else (b :: bs, p :: ps)
  | bs, ps => (bs, ps)

/-- Go `strings.Join(_, "/")` on character-list segments. -/
def joinSlash : List Seg → List Char
  | [] => []
  | [s] => s
  | s :: rest => s ++ '/' :: joinSlash rest

/-- The string produced by Go `filepath.Rel(base, path)` for two cleaned rooted
paths: `..` for every unmatched base segment, then the unmatched target
segments, or `.` when both are exhausted. -/
def relString (base path : GoPath) : List Char :=
  let sc := stripCommon base path
  if sc.1 = [] then
    if sc.2 = [] then ['.'] else joinSlash sc.2
  else
    joinSlash (List.replicate sc.1.length ['.', '.'] ++ sc.2)

/-- Model of `isRelativeTo` (pkg/common/dockerfile.go): `filepath.Rel` first
cleans both rooted arguments, and the result is accepted unless the relative
string starts with the two characters `..`.  `filepath.Rel` cannot fail on two
rooted paths, so the error branch of the source is unreachable here. -/
def isRelativeTo (path base : GoPath) : Bool :=
  !(List.isPrefixOf ['.', '.'] (relString (cleanAbs base) (cleanAbs path)))

/-- A canonical path segment: nonempty, no separator, not `.` and not `..`. -/
def canonSeg (s : Seg) : Prop := s ≠ [] ∧ '/' ∉ s ∧ s ≠ ['.'] ∧ s ≠ ['.', '.']

instance (s : Seg) : Decidable (canonSeg s) := by
  unfold canonSeg; infer_instance

/-- A canonical (symlink-resolved, cleaned) path: every segment is canonical. -/
def canonPath (p : GoPath) : Prop := ∀ s ∈ p, canonSeg s

instance (p : GoPath) : Decidable (canonPath p) := by
  unfold canonPath; infer_instance

/- ## Build-file discovery (SearchDockerfile, pkg/common/dockerfile.go) -/

/-- Outcome of `filepath.EvalSymlinks`: the resolved path, a "does not exist"
error, or any other I/O error. -/
inductive EvalResult where
  | ok (p : GoPath)
  | notExist
  | ioFailure
deriving DecidableEq

/-- Abstract filesystem oracle used by `SearchDockerfile`. -/
structure DockerfileFS where
  evalSymlinks : GoPath → EvalResult

/-- `DockerfileSearchOpts` (pkg/common/dockerfile.go).  A `none` field models
the empty string.  `sourceDir` is the absolutized source path (the caller-side
`filepath.Abs`); `contextDir` and `dockerfile` are raw segment lists, cleaned
when joined. -/
structure DockerfileSearchOpts where
  sourceDir : Option GoPath
  contextDir : Option GoPath
  dockerfile : Option GoPath

/-- The errors `SearchDockerfile` can return.  `escapeDetected` models the
"Dockerfile %s is not present under source" error and carries exactly what the
source formats: the searched dockerfile argument and the resolved source
boundary. -/
inductive DockerfileError where
  | missingSourceDir
  | sourceSymlinkFailure (path : GoPath)
  | dockerfileSymlinkFailure (path : GoPath)
  | escapeDetected (dockerfile : GoPath) (boundary : GoPath)
deriving DecidableEq

/-- The default context directory `.`. -/
def contextDirDefault : GoPath := [sg "."]

/-- The first default build-file name `./Containerfile`. -/
def containerfileDefault : GoPath := [sg ".", sg "Containerfile"]

/-- The second default build-file name `./Dockerfile`. -/
def dockerfileDefault : GoPath := [sg ".", sg "Dockerfile"]

/-- The two candidate locations tried by the `_search` closure, in order:
`Join(actualAbsSourcePath, contextDir, dockerfile)` then
`Join(actualAbsSourcePath, dockerfile)` (`filepath.Join` cleans). -/
def candidatePaths (boundary ctx df : GoPath) : List GoPath :=
  [cleanAbs (boundary ++ ctx ++ df), cleanAbs (boundary ++ df)]

/-- The candidate loop of the `_search` closure: a missing candidate is
skipped, any other symlink-evaluation failure is returned as an error, and an
existing candidate is containment-checked: contained resolves the search,
otherwise the escape error is returned. -/
def searchLoop (fs : DockerfileFS) (boundary df : GoPath) :
    List GoPath → Except DockerfileError (Option GoPath)
  | [] => .ok none
  | c :: rest =>
    match fs.evalSymlinks c with
    | .notExist => searchLoop fs boundary df rest
    | .ioFailure => .error (.dockerfileSymlinkFailure c)
    | .ok actual =>
      if isRelativeTo actual boundary then .ok (some actual)
      else .error (.escapeDetected df boundary)

/-- The `_search` closure of `SearchDockerfile` for one dockerfile name. -/
def searchOne (fs : DockerfileFS) (boundary ctx df : GoPath) :
    Except DockerfileError (Option GoPath) :=
  searchLoop fs boundary df (candidatePaths boundary ctx df)

/-- `SearchDockerfile` (pkg/common/dockerfile.go): reject an empty source,
default the context to `.`, resolve the source to the containment boundary
(any failure there is an error), then search the explicit dockerfile, or
`./Containerfile` followed by `./Dockerfile` when none was given; `.ok none`
is the "not found" sentinel (the empty string in the source). -/
def SearchDockerfile (fs : DockerfileFS) (opts : DockerfileSearchOpts) :
    Except DockerfileError (Option GoPath) :=
  match opts.sourceDir with
  | none => .error .missingSourceDir
  | some srcAbs =>
    let ctx := opts.contextDir.getD contextDirDefault
    match fs.evalSymlinks srcAbs with
    | .notExist => .error (.sourceSymlinkFailure srcAbs)
    | .ioFailure => .error (.sourceSymlinkFailure srcAbs)
    | .ok boundary =>
      match opts.dockerfile with
      | none =>
        match searchOne fs boundary ctx containerfileDefault with
        | .error e => .error e
        | .ok (some p) => .ok (some p)
        | .ok none => searchOne fs boundary ctx dockerfileDefault
      | some df => searchOne fs boundary ctx df

/-- The resolved form of the first candidate in the list that exists, `none`
when the first non-missing candidate fails to resolve or none exists. -/
def firstResolved (fs : DockerfileFS) : List GoPath → Option GoPath
  | [] => none
  | c :: rest =>
    match fs.evalSymlinks c with
    | .notExist => firstResolved fs rest
    | .ioFailure => none
    | .ok a => some a

/-- Filesystem for the escape scenario of the spec: `/tmp/s` is the source,
`/tmp/s/ctx` is a symlink to `/tmp/outside`, and `/tmp/outside/Dockerfile`
exists; everything else is missing. -/
def fsEscape : DockerfileFS where
  evalSymlinks p :=
    if p = [sg "tmp", sg "s"] then .ok [sg "tmp", sg "s"]
    else if p = [sg "tmp", sg "s", sg "ctx", sg "Dockerfile"] then
      .ok [sg "tmp", sg "outside", sg "Dockerfile"]
    else .notExist

/-- Search options for the escape scenario: source `/tmp/s`, context `ctx`,
no explicit dockerfile. -/
def optsEscape : DockerfileSearchOpts :=
  ⟨some [sg "tmp", sg "s"], some [sg "ctx"], none⟩

/-- Filesystem for the precedence scenario: source `/s`, context `c`, and all
four of `Containerfile`/`Dockerfile` in both the context and the source. -/
def fsPrecedence : DockerfileFS where
  evalSymlinks p :=
    if p = [sg "s"] then .ok [sg "s"]
    else if p = [sg "s", sg "c", sg "Containerfile"] then
      .ok [sg "s", sg "c", sg "Containerfile"]
    else if p = [sg "s", sg "c", sg "Dockerfile"] then
      .ok [sg "s", sg "c", sg "Dockerfile"]
    else if p = [sg "s", sg "Containerfile"] then .ok [sg "s", sg "Containerfile"]
    else if p = [sg "s", sg "Dockerfile"] then .ok [sg "s", sg "Dockerfile"]
    else .notExist

/-- Search options for the precedence scenario. -/
def optsPrecedence : DockerfileSearchOpts := ⟨some [sg "s"], some [sg "c"], none⟩

/-- Filesystem with an existing but empty source directory `/s`. -/
def fsEmptyDir : DockerfileFS where
  evalSymlinks p := if p = [sg "s"] then .ok [sg "s"] else .notExist

/-- Default search options over `/s`: no context, no explicit dockerfile. -/
def optsEmptyDir : DockerfileSearchOpts := ⟨some [sg "s"], none, none⟩

/- ## Secret directory resolution (processSecretDirs, pkg/commands/build.go) -/

/-- A path as passed on the command line: whether it is absolute, plus its
segments.  Secret-directory sources may be relative. -/
structure SPath where
  abs : Bool
  segs : List Seg
deriving DecidableEq

/-- `filepath.Join(dir, name)` for a directory-entry name: entry names carry
no separator, so the join appends one segment. -/
def spJoin (p : SPath) (name : Seg) : SPath := ⟨p.abs, p.segs ++ [name]⟩

/-- The type of a directory entry as reported by `os.DirEntry.Type()`. -/
inductive EntryType where
  | regular
  | symlink
  | directory
  | other
deriving DecidableEq

/-- A directory entry: its name and type. -/
structure DirEntry where
  name : Seg
  etype : EntryType
deriving DecidableEq

/-- Outcome of `os.ReadDir`. -/
inductive ReadDirResult where
  | ok (entries : List DirEntry)
  | notExist
  | readFailure
deriving DecidableEq

/-- Outcome of the `os.Stat` used on symlink entries: whether the final target
is a regular file, or an error. -/
inductive StatResult where
  | ok (regular : Bool)
  | statFailure
deriving DecidableEq

/-- Abstract filesystem oracle used when resolving secret directories. -/
structure SecretFS where
  readDir : SPath → ReadDirResult
  stat : SPath → StatResult

/-- `secretDir` (pkg/commands/build.go): a parsed `--secret-dirs` entry.  An
empty `name` means no alias was given. -/
structure SecretDir where
  src : SPath
  name : List Char
  optional : Bool

/-- `cliwrappers.BuildahSecret`: one resolved `--secret` mapping. -/
structure BuildahSecret where
  src : SPath
  id : List Char
deriving DecidableEq

/-- Errors of `processSecretDirs`.  `secretDirUnreadable` covers both a
missing non-optional directory and any other `os.ReadDir` failure. -/
inductive SecretError where
  | secretDirUnreadable (src : SPath)
  | statFailed (path : SPath)
  | duplicateSecretID (id : List Char)
deriving DecidableEq

/-- Split a character list at `/` separators, keeping empty segments. -/
def splitSlash : List Char → List Seg
  | [] => [[]]
  | c :: rest =>
    if c = '/' then [] :: splitSlash rest
    else
      match splitSlash rest with
      | s :: ss => (c :: s) :: ss
      | [] => [[c]]

/-- One segment step of Go `filepath.Clean`; `rooted` tells whether the path
is absolute, which decides how `..` behaves when nothing can be popped. -/
def goCleanStep (rooted : Bool) (acc : List Seg) (s : Seg) : List Seg :=
  if s = [] ∨ s = ['.'] then acc
  else if s = ['.', '.'] then
    if acc = [] ∨ acc.getLast? = some ['.', '.'] then
      if rooted then acc else acc ++ [s]
    else acc.dropLast
  else acc ++ [s]

/-- Go `filepath.Clean` segment processing. -/
def goCleanSegs (rooted : Bool) (segs : List Seg) : List Seg :=
  segs.foldl (goCleanStep rooted) []

/-- Go `filepath.Clean` on a character-list path. -/
def goClean (s : List Char) : List Char :=
  if s.head? = some '/' then
    match goCleanSegs true (splitSlash s) with
    | [] => ['/']
    | segs => '/' :: joinSlash segs
  else
    match goCleanSegs false (splitSlash s) with
    | [] => ['.']
    | segs => joinSlash segs

/-- Go `filepath.Join(a, b)` for two nonempty strings: join with a separator,
then clean.  (The two arguments are never empty in the modelled calls: an id
prefix is never empty and directory entries have nonempty names.) -/
def goJoinRel (a b : List Char) : List Char := goClean (a ++ '/' :: b)

/-- `filepath.Base` of an `SPath`: the last segment, `.` for an empty relative
path and `/` for the bare root. -/
def goBase (p : SPath) : List Char :=
  match p.segs.getLast? with
  | some s => s
  | none => if p.abs then ['/'] else ['.']

/-- The id prefix of a spec: the `name` alias when set, else the base name of
`src` (processSecretDirs, pkg/commands/build.go). -/
def idPrefix (d : SecretDir) : List Char :=
  if d.name = [] then goBase d.src else d.name

/-- `isRegular` (pkg/commands/build.go): a regular entry is accepted, a
symlink is resolved with `os.Stat` (a stat error aborts, otherwise the answer
is whether the target is regular), and everything else is not a regular
file. -/
def isRegular (fs : SecretFS) (dir : SPath) (e : DirEntry) :
    Except SecretError Bool :=
  match e.etype with
  | .regular => .ok true
  | .symlink =>
    match fs.stat (spJoin dir e.name) with
    | .ok b => .ok b
    | .statFailure => .error (.statFailed (spJoin dir e.name))
  | .directory => .ok false
  | .other => .ok false

/-- The inner entry loop of `processSecretDirs`: accepted entries produce
mappings `{src: Join(src, name), id: Join(prefix, name)}` with duplicate-id
detection against the accumulated `usedIDs`. -/
def secretEntriesLoop (fs : SecretFS) (src : SPath) (pfx : List Char) :
    List DirEntry → List (List Char) → List BuildahSecret →
    Except SecretError (List (List Char) × List BuildahSecret)
  | [], used, acc => .ok (used, acc)
  | e :: rest, used, acc =>
    match isRegular fs src e with
    | .error err => .error err
    | .ok false => secretEntriesLoop fs src pfx rest used acc
    | .ok true =>
      if goJoinRel pfx e.name ∈ used then
        .error (.duplicateSecretID (goJoinRel pfx e.name))
      else
        secretEntriesLoop fs src pfx rest (goJoinRel pfx e.name :: used)
          (acc ++ [⟨spJoin src e.name, goJoinRel pfx e.name⟩])

/-- The outer loop of `processSecretDirs` over the parsed specs: a missing
optional directory is skipped, a missing non-optional one or any other
listing failure aborts. -/
def secretDirsLoop (fs : SecretFS) :
    List SecretDir → List (List Char) → List BuildahSecret →
    Except SecretError (List BuildahSecret)
  | [], _, acc => .ok acc
  | d :: rest, used, acc =>
    match fs.readDir d.src with
    | .notExist =>
      if d.optional then secretDirsLoop fs rest used acc
      else .error (.secretDirUnreadable d.src)
    | .readFailure => .error (.secretDirUnreadable d.src)
    | .ok entries =>
      match secretEntriesLoop fs d.src (idPrefix d) entries used acc with
      | .error e => .error e
      | .ok ua => secretDirsLoop fs rest ua.1 ua.2

/-- `processSecretDirs` (pkg/commands/build.go). -/
def processSecretDirs (fs : SecretFS) (dirs : List SecretDir) :
    Except SecretError (List BuildahSecret) :=
  secretDirsLoop fs dirs [] []

/-- Whether `isRegular` accepts the entry. -/
def acceptedEntry (fs : SecretFS) (src : SPath) (e : DirEntry) : Bool :=
  match isRegular fs src e with
  | .ok true => true
  | _ => false

/-- The entries a spec's directory lists (empty when it cannot be listed). -/
def readEntries (fs : SecretFS) (d : SecretDir) : List DirEntry :=
  match fs.readDir d.src with
  | .ok entries => entries
  | _ => []

/-- The mappings the code produces for one spec's accepted entries. -/
def codeEntryMappings (fs : SecretFS) (src : SPath) (pfx : List Char)
    (entries : List DirEntry) : List BuildahSecret :=
  (entries.filter (acceptedEntry fs src)).map fun e =>
    ⟨spJoin src e.name, goJoinRel pfx e.name⟩

/-- The mappings the code produces across all specs in order. -/
def codeSecretMappings (fs : SecretFS) (dirs : List SecretDir) :
    List BuildahSecret :=
  dirs.flatMap fun d =>
    match fs.readDir d.src with
    | .ok entries => codeEntryMappings fs d.src (idPrefix d) entries
    | _ => []

/-- Modelled from the spec (section 4.3): for each spec in order, each
accepted entry in listing order yields the mapping with source
`src/filename` and id `idPrefix + "/" + filename`; directories that cannot
be listed contribute nothing. -/
def specSecretMappings (fs : SecretFS) (dirs : List SecretDir) :
    List BuildahSecret :=
  dirs.flatMap fun d =>
    match fs.readDir d.src with
    | .ok entries =>
      (entries.filter (acceptedEntry fs d.src)).map fun e =>
        ⟨spJoin d.src e.name, idPrefix d ++ '/' :: e.name⟩
    | _ => []

/-- `ensureAbsolute` inside `BuildahBuildArgs.MakePathsAbsolute`
(pkg/cliwrappers/buildah.go): an absolute path is kept, a relative one is
joined to the base directory and cleaned by `filepath.Abs`/`Join`. -/
def ensureAbsolute (base : SPath) (p : SPath) : SPath :=
  if p.abs then p else ⟨true, goCleanSegs true (base.segs ++ p.segs)⟩

/-- The secrets loop of `MakePathsAbsolute`: every secret source is made
absolute before the build tool is invoked. -/
def makeSecretsAbsolute (base : SPath) (secrets : List BuildahSecret) :
    List BuildahSecret :=
  secrets.map fun s => ⟨ensureAbsolute base s.src, s.id⟩

/-- Well-behavedness of a resolution run: every spec has a canonical id
prefix, its directory is never unreadable for a reason other than absence,
absence only happens for optional specs, and listed entries have canonical
names (as the operating system guarantees) and stat-able symlink targets. -/
def goodSecretRun (fs : SecretFS) (dirs : List SecretDir) : Prop :=
  ∀ d ∈ dirs,
    canonSeg (idPrefix d) ∧
    fs.readDir d.src ≠ .readFailure ∧
    (fs.readDir d.src = .notExist → d.optional = true) ∧
    ∀ e ∈ readEntries fs d,
      canonSeg e.name ∧
      (e.etype = .symlink → fs.stat (spJoin d.src e.name) ≠ .statFailure)

instance (fs : SecretFS) (dirs : List SecretDir) :
    Decidable (goodSecretRun fs dirs) := by
  unfold goodSecretRun; infer_instance

/-- The secret-directory spec of the duplicate-id scenario: `a/secret1` and
`b/secret1`, both containing a regular file `token`, no aliases. -/
def dirsDup : List SecretDir :=
  [⟨⟨false, [sg "a", sg "secret1"]⟩, [], false⟩,
   ⟨⟨false, [sg "b", sg "secret1"]⟩, [], false⟩]

/-- Filesystem of the duplicate-id scenario. -/
def fsDup : SecretFS where
  readDir p :=
    if p = ⟨false, [sg "a", sg "secret1"]⟩ then .ok [⟨sg "token", .regular⟩]
    else if p = ⟨false, [sg "b", sg "secret1"]⟩ then .ok [⟨sg "token", .regular⟩]
    else .notExist
  stat _ := .statFailure

/-- Kubernetes-style secret volume: `sec` contains `token`, a symlink to a
regular file, and `data`, a symlink to a directory. -/
def fsK8s : SecretFS where
  readDir p :=
    if p = ⟨false, [sg "sec"]⟩ then
      .ok [⟨sg "token", .symlink⟩, ⟨sg "data", .symlink⟩]
    else .notExist
  stat p :=
    if p = ⟨false, [sg "sec", sg "token"]⟩ then .ok true
    else if p = ⟨false, [sg "sec", sg "data"]⟩ then .ok false
    else .statFailure

/-- The single spec over the Kubernetes-style volume. -/
def secDirK8s : SecretDir := ⟨⟨false, [sg "sec"]⟩, [], false⟩

/-- A single secret spec with a relative source directory `a` holding one
regular file `token`. -/
def dirRelSecret : SecretDir := ⟨⟨false, [sg "a"]⟩, [], false⟩

/-- Filesystem for the relative-source scenario. -/
def fsRelSecret : SecretFS where
  readDir p :=
    if p = ⟨false, [sg "a"]⟩ then .ok [⟨sg "token", .regular⟩] else .notExist
  stat _ := .statFailure

/- ## Registry credential selection (SelectRegistryAuth, pkg/common) -/

/-- Character class `[a-zA-Z0-9_]` of the tag regular expression. -/
def isWordChar (c : Char) : Bool :=
  decide (('a' ≤ c ∧ c ≤ 'z') ∨ ('A' ≤ c ∧ c ≤ 'Z') ∨ ('0' ≤ c ∧ c ≤ '9') ∨ c = '_')

/-- Character class `[a-zA-Z0-9_.-]` of the tag regular expression. -/
def isTagChar (c : Char) : Bool := isWordChar c || c == '.' || c == '-'

/-- Character class `[a-fA-F0-9]` of the digest regular expression. -/
def isHexChar (c : Char) : Bool :=
  decide (('0' ≤ c ∧ c ≤ '9') ∨ ('a' ≤ c ∧ c ≤ 'f') ∨ ('A' ≤ c ∧ c ≤ 'F'))

/-- Whether a suffix matches `[a-zA-Z0-9_][a-zA-Z0-9_.-]{0,127}` to the end of
the string (the anchored tail of the tag regular expression). -/
def tagMatch : List Char → Bool
  | [] => false
  | c :: rest => isWordChar c && rest.all isTagChar && decide (rest.length ≤ 127)

/-- `imageTagSuffixRegex.ReplaceAllString(s, "")`: the regular expression is
anchored at the end, so the leftmost match starts at the first `:` whose whole
tail matches, and the replacement drops it together with the tail. -/
def stripTag : List Char → List Char
  | [] => []
  | c :: rest =>
    if c = ':' ∧ tagMatch rest = true then [] else c :: stripTag rest

/-- `imageDigestSuffixRegex.ReplaceAllString(s, "")`: the pattern
`@sha256:` plus sixty-four hexadecimal characters has fixed length and is
anchored at the end, so it matches at exactly one position if at all. -/
def stripDigest (s : List Char) : List Char :=
  if 72 ≤ s.length ∧ (s.drop (s.length - 72)).take 8 = sg "@sha256:" ∧
      ((s.drop (s.length - 72)).drop 8).all isHexChar = true then
    s.take (s.length - 72)
  else s

/-- `GetImageName` (pkg/common): trim the digest and then the tag. -/
def GetImageName (imageURL : List Char) : List Char :=
  stripTag (stripDigest imageURL)

/-- `RegistryAuth` (pkg/common): the selected credential. -/
structure RegistryAuth where
  registry : List Char
  token : List Char
deriving DecidableEq

/-- Errors of `SelectRegistryAuth`. -/
inductive AuthError where
  | invalidImageRef (ref : List Char)
  | authNotConfigured (repo : List Char)
deriving DecidableEq

/-- The loaded `auths` mapping of an authentication file: scope keys to auth
strings, with first-match lookup. -/
abbrev AuthMap := List (List Char × List Char)

/-- The canonical short name of the Docker Hub registry. -/
def dockerIoKey : List Char := sg "docker.io"

/-- The historical scope string written by `oras login` for Docker Hub. -/
def indexDockerIoKey : List Char := sg "https://index.docker.io/v1/"

/-- `authKey[:strings.LastIndex(authKey, "/")]`: everything before the last
separator, or `none` when the key holds no separator. -/
def lastSlashCut : List Char → Option (List Char)
  | [] => none
  | c :: rest =>
    match lastSlashCut rest with
    | some k' => some (c :: k')
    | none => if c = '/' then some [] else none

/-- The lookup loop of `findAuth`, with explicit fuel: each iteration either
hits a scope and returns its auth string, or strips the last `/`-segment and
retries, stopping when no separator is left.  Stripping shortens the key, so
fuel `key.length + 1` (used below) always suffices and the fuel-exhausted
branch is unreachable. -/
def findAuthWalkAux (auths : AuthMap) : Nat → List Char → Option (List Char)
  | 0, _ => none
  | n + 1, key =>
    match auths.lookup key with
    | some a => some a
    | none =>
      match lastSlashCut key with
      | some k' => findAuthWalkAux auths n k'
      | none => none

/-- The lookup loop of `findAuth` (pkg/common). -/
def findAuthWalk (auths : AuthMap) (key : List Char) : Option (List Char) :=
  findAuthWalkAux auths (key.length + 1) key

/-- `findAuth` (pkg/common): walk the scope chain; only when no scope at all
was present and the registry is `docker.io` is the historical index scope
tried; an empty string means nothing was found. -/
def findAuth (auths : AuthMap) (imageRepo : List Char) : List Char :=
  match findAuthWalk auths imageRepo with
  | some a => a
  | none =>
    if imageRepo.takeWhile (fun c => c != '/') = dockerIoKey then
      match auths.lookup indexDockerIoKey with
      | some a => a
      | none => []
    else []

/-- `SelectRegistryAuth` (pkg/common), with the already-loaded auth file as
input: strip tag and digest, find the auth string, and return the first
`/`-segment of the repository together with the matched token; an empty
result of `findAuth` is reported as not configured. -/
def SelectRegistryAuth (auths : AuthMap) (imageRef : List Char) :
    Except AuthError RegistryAuth :=
  let imageRepo := GetImageName imageRef
  if imageRepo = [] then .error (.invalidImageRef imageRef)
  else
    let token := findAuth auths imageRepo
    if token = [] then .error (.authNotConfigured imageRepo)
    else .ok ⟨imageRepo.takeWhile (fun c => c != '/'), token⟩

/-- The chain of scope keys the walk visits: the repository, then each result
of stripping the last `/`-segment, down to the bare registry.  Same fuel
convention as the walk. -/
def authChainAux : Nat → List Char → List (List Char)
  | 0, key => [key]
  | n + 1, key =>
    key ::
      match lastSlashCut key with
      | some k' => authChainAux n k'
      | none => []

/-- The chain of scope keys tried for a repository, in order. -/
def authChain (key : List Char) : List (List Char) :=
  authChainAux (key.length + 1) key

/-- The first hit of a scope-key list in the auth map. -/
def chainFirstHit (auths : AuthMap) : List (List Char) → Option (List Char)
  | [] => none
  | k :: ks =>
    match auths.lookup k with
    | some a => some a
    | none => chainFirstHit auths ks

/-- Auth map of the longest-prefix scenario: scopes `reg.io` and
`reg.io/foo/bar`. -/
def authsPrefix : AuthMap :=
  [(sg "reg.io", sg "tokA"), (sg "reg.io/foo/bar", sg "tokB")]

/-- Image reference of the longest-prefix scenario. -/
def refPrefix : List Char := sg "reg.io/foo/bar/baz:v1"

/- ## Structured package-input transformation (prefetch_dependencies) -/

/-- The dynamically-shaped JSON value produced by `json.Unmarshal` into `any`:
null, booleans, numbers (kept as opaque literals; their numeric semantics are
irrelevant to the traversal), strings, arrays, and objects as association
lists with first-match lookup (Go map keys are unique). -/
inductive JValue where
  | null
  | bool (b : Bool)
  | num (lit : List Char)
  | str (s : List Char)
  | arr (elems : List JValue)
  | obj (fields : List (List Char × JValue))

mutual

/-- Structural size of a `JValue`, used as recursion fuel. -/
def jSize : JValue → Nat
  | .null => 1
  | .bool _ => 1
  | .num _ => 1
  | .str _ => 1
  | .arr elems => 1 + jSizeList elems
  | .obj fields => 1 + jSizeFields fields

/-- Structural size of a list of values. -/
def jSizeList : List JValue → Nat
  | [] => 0
  | x :: xs => 1 + jSize x + jSizeList xs

/-- Structural size of an object's field list. -/
def jSizeFields : List (List Char × JValue) → Nat
  | [] => 0
  | (_, v) :: rest => 1 + jSize v + jSizeFields rest

end

/-- Go map indexing `data[k]`. -/
def jLookup (k : List Char) : List (List Char × JValue) → Option JValue
  | [] => none
  | (k', v) :: rest => if k' = k then some v else jLookup k rest

/-- Go map assignment `data[k] = v`: replace the binding or append it. -/
def jSet (k : List Char) (v : JValue) :
    List (List Char × JValue) → List (List Char × JValue)
  | [] => [(k, v)]
  | (k', v') :: rest =>
    if k' = k then (k', v) :: rest else (k', v') :: jSet k v rest

/-- `maps.Copy(dst, src)`: set every binding of `src` in `dst`. -/
def jCopy (dst src : List (List Char × JValue)) : List (List Char × JValue) :=
  src.foldl (fun d kv => jSet kv.1 kv.2 d) dst

/-- The `"packages"` field name. -/
def pkgKey : List Char := sg "packages"

/-- The `"type"` field name. -/
def typeKey : List Char := sg "type"

/-- The `"rpm"` package type. -/
def rpmStr : List Char := sg "rpm"

/-- The `"options"` field name. -/
def optionsKey : List Char := sg "options"

/-- The `"ssl"` field name. -/
def sslKey : List Char := sg "ssl"

/-- `containsRPM` (prefetch_dependencies), with explicit recursion fuel: an
array is searched element-wise; an object is searched through a `"packages"`
array when that field holds one, and additionally matches when its `"type"`
field is the string `"rpm"`; everything else does not match.  Every recursive
call is on a structurally smaller value, so fuel `jSize input + 1` (used
below) always suffices and the fuel-exhausted branch is unreachable. -/
def containsRPMAux : Nat → JValue → Bool
  | 0, _ => false
  | n + 1, v =>
    match v with
    | .arr elems => elems.any (containsRPMAux n)
    | .obj fields =>
      (match jLookup pkgKey fields with
       | some (.arr ps) => ps.any (containsRPMAux n)
       | _ => false) ||
      (match jLookup typeKey fields with
       | some (.str s) => decide (s = rpmStr)
       | _ => false)
    | _ => false

/-- `containsRPM` (prefetch_dependencies). -/
def containsRPM (input : JValue) : Bool :=
  containsRPMAux (jSize input + 1) input

/-- `injectSSLOptions` (prefetch_dependencies), with the same fuel
convention: arrays are rewritten element-wise, an object with a `"packages"`
array has that array's elements rewritten (the in-place slice mutation of the
source keeps the field in place), and an object whose `"type"` field is
`"rpm"` gets the ssl options injected: copied into an existing
`options.ssl` map, or `options` is replaced wholesale by an object holding
only `ssl`; everything else is returned unchanged. -/
def injectSSLOptionsAux : Nat → JValue → List (List Char × JValue) → JValue
  | 0, v, _ => v
  | n + 1, v, ssl =>
    match v with
    | .arr elems => .arr (elems.map (fun x => injectSSLOptionsAux n x ssl))
    | .obj fields =>
      match jLookup pkgKey fields with
      | some (.arr ps) =>
        .obj (jSet pkgKey (.arr (ps.map (fun p => injectSSLOptionsAux n p ssl))) fields)
      | _ =>
        match jLookup typeKey fields with
        | some (.str s) =>
          if s = rpmStr then
            match jLookup optionsKey fields with
            | some (.obj opts) =>
              match jLookup sslKey opts with
              | some (.obj existingSSL) =>
                .obj (jSet optionsKey
                  (.obj (jSet sslKey (.obj (jCopy existingSSL ssl)) opts)) fields)
              | _ => .obj (jSet optionsKey (.obj [(sslKey, .obj ssl)]) fields)
            | _ => .obj (jSet optionsKey (.obj [(sslKey, .obj ssl)]) fields)
          else v
        | _ => v
    | _ => v

/-- `injectSSLOptions` (prefetch_dependencies). -/
def injectSSLOptions (input : JValue) (ssl : List (List Char × JValue)) : JValue :=
  injectSSLOptionsAux (jSize input + 1) input ssl

/-- Modelled from the spec (section 4.5): the traversal shape shared with the
injection functions.  A match is reached through array elements and through
the elements of a `"packages"` array; a leaf match is an object carrying a
`"type"` field equal to the target and not a `"packages"` array. -/
inductive SpecFindsRPMStrict : JValue → Prop where
  | arrElem (elems : List JValue) (x : JValue) :
      x ∈ elems → SpecFindsRPMStrict x → SpecFindsRPMStrict (.arr elems)
  | pkgElem (fields : List (List Char × JValue)) (ps : List JValue) (p : JValue) :
      jLookup pkgKey fields = some (.arr ps) → p ∈ ps →
      SpecFindsRPMStrict p → SpecFindsRPMStrict (.obj fields)
  | leaf (fields : List (List Char × JValue)) :
      jLookup typeKey fields = some (.str rpmStr) →
      (∀ ps, jLookup pkgKey fields ≠ some (.arr ps)) →
      SpecFindsRPMStrict (.obj fields)

/-- The traversal `containsRPM` actually performs: as above, but an object
with both a `"packages"` array and a matching `"type"` field is itself still
a match. -/
inductive SpecFindsRPM : JValue → Prop where
  | arrElem (elems : List JValue) (x : JValue) :
      x ∈ elems → SpecFindsRPM x → SpecFindsRPM (.arr elems)
  | pkgElem (fields : List (List Char × JValue)) (ps : List JValue) (p : JValue) :
      jLookup pkgKey fields = some (.arr ps) → p ∈ ps →
      SpecFindsRPM p → SpecFindsRPM (.obj fields)
  | leaf (fields : List (List Char × JValue)) :
      jLookup typeKey fields = some (.str rpmStr) →
      SpecFindsRPM (.obj fields)

/-- The object holding both an empty `"packages"` array and `"type": "rpm"`. -/
def rpmWithPackages : JValue :=
  .obj [(pkgKey, .arr []), (typeKey, .str rpmStr)]

/-- The existing ssl map of the merge scenario. -/
def sslOldOptions : List (List Char × JValue) :=
  [(sg "client_key", .str (sg "old"))]

/-- The existing options map of the merge scenario: an `ssl` sub-map plus an
unrelated key. -/
def rpmLeafOpts : List (List Char × JValue) :=
  [(sslKey, .obj sslOldOptions), (sg "other", .str (sg "keep"))]

/-- Leaf node of the ssl-merge scenario: `"type": "rpm"` with the existing
options above. -/
def rpmLeafFields : List (List Char × JValue) :=
  [(typeKey, .str rpmStr), (optionsKey, .obj rpmLeafOpts)]

/-- The ssl options injected in the merge scenario. -/
def sslNewOptions : List (List Char × JValue) :=
  [(sg "client_key", .str (sg "new")), (sg "ca_bundle", .str (sg "cb"))]

/- ## Helper lemmas about the containment primitive -/

theorem cleanAbs_aux_canon (p : GoPath) :
    ∀ acc : GoPath, canonPath p → p.foldl cleanAbsStep acc = acc ++ p := by
  induction p with
  | nil => intro acc _; simp
  | cons s rest ih =>
    intro acc hc
    have hs : canonSeg s := hc s (by simp)
    obtain ⟨h1, _, h3, h4⟩ := hs
    have hrest : canonPath rest := fun t ht => hc t (by simp [ht])
    simp only [List.foldl_cons]
    rw [show cleanAbsStep acc s = acc ++ [s] by
      unfold cleanAbsStep
      rw [if_neg (by simp [h1, h3]), if_neg h4]]
    rw [ih (acc ++ [s]) hrest]
    simp

/-- Cleaning is the identity on canonical paths. -/
theorem cleanAbs_canon (p : GoPath) (h : canonPath p) : cleanAbs p = p := by
  unfold cleanAbs
  simpa using cleanAbs_aux_canon p [] h

theorem stripCommon_of_leading (b : GoPath) :
    ∀ p : GoPath, b <+: p → stripCommon b p = ([], p.drop b.length) := by
  induction b with
  | nil => intro p _; cases p <;> simp [stripCommon]
  | cons s bs ih =>
    intro p hp
    obtain ⟨t, ht⟩ := hp
    subst ht
    simp [stripCommon, ih (bs ++ t) ⟨t, rfl⟩]

theorem stripCommon_fst_ne_nil (b : GoPath) :
    ∀ p : GoPath, ¬ b <+: p → (stripCommon b p).1 ≠ [] := by
  induction b with
  | nil => intro p hp; exact absurd (List.nil_prefix) hp
  | cons s bs ih =>
    intro p hp
    cases p with
    | nil => simp [stripCommon]
    | cons q qs =>
      by_cases hsq : s = q
      · subst hsq
        have : ¬ bs <+: qs := by
          intro hctr
          exact hp (List.prefix_cons_inj s |>.mpr hctr)
        simp only [stripCommon, if_pos rfl]
        exact ih qs this
      · simp [stripCommon, hsq]

/-- The joined string starts with `..` exactly when its first segment does. -/
theorem dotdot_prefix_joinSlash (s : Seg) (rest : List Seg) :
    ['.', '.'] <+: joinSlash (s :: rest) ↔ ['.', '.'] <+: s := by
  cases rest with
  | nil => simp [joinSlash]
  | cons r rs =>
    show ['.', '.'] <+: s ++ '/' :: joinSlash (r :: rs) ↔ _
    cases s with
    | nil =>
      simp only [List.nil_append]
      constructor
      · intro h
        rw [List.cons_prefix_cons] at h
        exact absurd h.1 (by decide)
      · intro h
        exact absurd h (by simp)
    | cons c cs =>
      cases cs with
      | nil =>
        simp only [List.cons_append, List.nil_append]
        constructor
        · intro h
          rw [List.cons_prefix_cons] at h
          obtain ⟨hc, h2⟩ := h
          rw [List.cons_prefix_cons] at h2
          exact absurd h2.1 (by decide)
        · intro h
          rw [List.cons_prefix_cons] at h
          obtain ⟨_, h2⟩ := h
          exact absurd h2 (by simp)
      | cons c2 cs2 =>
        simp only [List.cons_append]
        rw [List.cons_prefix_cons, List.cons_prefix_cons,
            List.cons_prefix_cons, List.cons_prefix_cons]
        simp

theorem relString_of_leading (base path : GoPath) (h : base <+: path) :
    relString base path =
      if path.drop base.length = [] then ['.'] else joinSlash (path.drop base.length) := by
  unfold relString
  rw [stripCommon_of_leading base path h]
  simp

theorem relString_of_not_leading (base path : GoPath) (h : ¬ base <+: path) :
    ['.', '.'] <+: relString base path := by
  have h1 := stripCommon_fst_ne_nil base path h
  unfold relString
  rcases hsc : stripCommon base path with ⟨br, pr⟩
  rw [hsc] at h1
  simp only [hsc]
  simp only at h1
  rw [if_neg h1]
  cases br with
  | nil => exact absurd rfl h1
  | cons b bs =>
    rw [show List.replicate (b :: bs).length (['.', '.'] : Seg) ++ pr =
        ['.', '.'] :: (List.replicate bs.length ['.', '.'] ++ pr) by simp [List.replicate]]
    rw [dotdot_prefix_joinSlash]

/-- Claim C5 (amended): on canonicalized paths, `isRelativeTo` accepts exactly
the boundary itself and the descendants whose first segment below the boundary
does not begin with the two characters `..`. -/
theorem isRelativeTo_characterization (path base : GoPath)
    (hb : canonPath base) (hp : canonPath path) :
    isRelativeTo path base = true ↔
      (base <+: path ∧ ¬ ['.', '.'] <+: (path.drop base.length).headD []) := by
  unfold isRelativeTo
  rw [cleanAbs_canon base hb, cleanAbs_canon path hp]
  rw [Bool.not_eq_true', ← Bool.not_eq_true]
  rw [List.isPrefixOf_iff_prefix]
  by_cases hpre : base <+: path
  · rw [relString_of_leading base path hpre]
    rcases hdrop : path.drop base.length with _ | ⟨s, rest⟩
    · simp [hpre]
    · rw [if_neg (by simp)]
      rw [dotdot_prefix_joinSlash]
      simp [hpre]
  · have := relString_of_not_leading base path hpre
    simp [this, hpre]

/-- Claim C5 counterexample: `/a/..d` is canonical and a strict descendant of
the canonical boundary `/a`, yet `isRelativeTo` rejects it, because the
relative string `..d` starts with the two characters `..`. -/
theorem isRelativeTo_not_descendant_iff : canonPath [sg "a"] ∧
    canonPath [sg "a", sg "..d"] ∧ [sg "a"] <+: [sg "a", sg "..d"] ∧
    isRelativeTo [sg "a", sg "..d"] [sg "a"] = false := by
  refine ⟨by decide, by decide, ⟨[sg "..d"], rfl⟩, by decide⟩

/-- Witness for C5: the characterization applied to `/a` and `/a/b`. -/
theorem isRelativeTo_characterization_witness : canonPath [sg "a"] ∧
    canonPath [sg "a", sg "b"] ∧
    (isRelativeTo [sg "a", sg "b"] [sg "a"] = true ↔
      ([sg "a"] <+: [sg "a", sg "b"] ∧
        ¬ ['.', '.'] <+: (([sg "a", sg "b"].drop [sg "a"].length).headD []))) :=
  ⟨by decide, by decide,
    isRelativeTo_characterization [sg "a", sg "b"] [sg "a"] (by decide) (by decide)⟩

/- ## SearchDockerfile lemmas -/

theorem searchLoop_ok_some (fs : DockerfileFS) (b df : GoPath) :
    ∀ l p, searchLoop fs b df l = .ok (some p) → isRelativeTo p b = true := by
  intro l
  induction l with
  | nil => intro p h; simp [searchLoop] at h
  | cons c rest ih =>
    intro p h
    simp only [searchLoop] at h
    split at h
    · exact ih p h
    · exact absurd h (by simp)
    · rename_i actual heq
      split at h
      · rename_i hrel
        cases h
        exact hrel
      · exact absurd h (by simp)

theorem searchLoop_escape (fs : DockerfileFS) (b df : GoPath) :
    ∀ l a, firstResolved fs l = some a → isRelativeTo a b = false →
      searchLoop fs b df l = .error (.escapeDetected df b) := by
  intro l
  induction l with
  | nil => intro a h; simp [firstResolved] at h
  | cons c rest ih =>
    intro a h hrel
    simp only [firstResolved] at h
    simp only [searchLoop]
    split at h
    · exact ih a h hrel
    · exact absurd h (by simp)
    · cases h
      simp [hrel]

theorem SearchDockerfile_resolved (fs : DockerfileFS) (opts : DockerfileSearchOpts)
    (srcAbs boundary : GoPath)
    (hsrc : opts.sourceDir = some srcAbs)
    (heval : fs.evalSymlinks srcAbs = .ok boundary) :
    SearchDockerfile fs opts =
      match opts.dockerfile with
      | none =>
        match searchOne fs boundary (opts.contextDir.getD contextDirDefault) containerfileDefault with
        | .error e => .error e
        | .ok (some p) => .ok (some p)
        | .ok none => searchOne fs boundary (opts.contextDir.getD contextDirDefault) dockerfileDefault
      | some df => searchOne fs boundary (opts.contextDir.getD contextDirDefault) df := by
  unfold SearchDockerfile
  rw [hsrc]
  simp only
  rw [heval]

/-- Claim C1 (amended): for a source that resolves to boundary `b`,
`SearchDockerfile` never returns a path that is not `isRelativeTo` the
boundary; whenever the first existing candidate of a search resolves outside
the boundary the search fails with `escapeDetected` carrying the searched
dockerfile argument and the boundary (the source formats the dockerfile
name, not the canonical candidate path); explicit searches and both phases
of the default search propagate that failure. -/
theorem searchDockerfile_escape_safety (fs : DockerfileFS)
    (opts : DockerfileSearchOpts) (srcAbs boundary : GoPath)
    (hsrc : opts.sourceDir = some srcAbs)
    (heval : fs.evalSymlinks srcAbs = .ok boundary) :
    (∀ p, SearchDockerfile fs opts = .ok (some p) → isRelativeTo p boundary = true) ∧
    (∀ ctx df a, firstResolved fs (candidatePaths boundary ctx df) = some a →
      isRelativeTo a boundary = false →
      searchOne fs boundary ctx df = .error (.escapeDetected df boundary)) ∧
    (∀ df, opts.dockerfile = some df →
      SearchDockerfile fs opts =
        searchOne fs boundary (opts.contextDir.getD contextDirDefault) df) ∧
    (opts.dockerfile = none → ∀ e,
      searchOne fs boundary (opts.contextDir.getD contextDirDefault) containerfileDefault
        = .error e →
      SearchDockerfile fs opts = .error e) ∧
    (opts.dockerfile = none →
      searchOne fs boundary (opts.contextDir.getD contextDirDefault) containerfileDefault
        = .ok none →
      SearchDockerfile fs opts =
        searchOne fs boundary (opts.contextDir.getD contextDirDefault) dockerfileDefault) := by
  have hres := SearchDockerfile_resolved fs opts srcAbs boundary hsrc heval
  refine ⟨?_, ?_, ?_, ?_, ?_⟩
  · intro p h
    rw [hres] at h
    rcases hdf : opts.dockerfile with _ | df <;> rw [hdf] at h
    · rcases hCf : searchOne fs boundary (opts.contextDir.getD contextDirDefault)
          containerfileDefault with e | op
      · rw [hCf] at h
        have h2 : (Except.error e : Except DockerfileError (Option GoPath))
            = .ok (some p) := h
        exact absurd h2 (by simp)
      · rcases op with _ | p'
        · rw [hCf] at h
          exact searchLoop_ok_some fs boundary dockerfileDefault _ p h
        · rw [hCf] at h
          have h2 : (Except.ok (some p') : Except DockerfileError (Option GoPath))
              = .ok (some p) := h
          injection h2 with h3
          injection h3 with h4
          rw [← h4]
          exact searchLoop_ok_some fs boundary containerfileDefault _ p' hCf
    · exact searchLoop_ok_some fs boundary df _ p h
  · intro ctx df a hfr hrel
    exact searchLoop_escape fs boundary df _ a hfr hrel
  · intro df hdf
    rw [hres, hdf]
  · intro hdf e herr
    rw [hres, hdf, herr]
  · intro hdf hnone
    rw [hres, hdf, hnone]

/-- Claim C1 counterexample: in the spec escape scenario the search fails, but
the `escapeDetected` error carries the dockerfile argument `./Dockerfile`, not
the canonical path `/tmp/outside/Dockerfile` of the offending candidate, so
the error does not carry the canonical path. -/
theorem searchDockerfile_escape_payload_counterexample :
    SearchDockerfile fsEscape optsEscape =
      .error (.escapeDetected dockerfileDefault [sg "tmp", sg "s"]) ∧
    fsEscape.evalSymlinks (cleanAbs ([sg "tmp", sg "s"] ++ [sg "ctx"] ++ dockerfileDefault)) =
      .ok [sg "tmp", sg "outside", sg "Dockerfile"] ∧
    dockerfileDefault ≠ [sg "tmp", sg "outside", sg "Dockerfile"] :=
  ⟨rfl, rfl, by decide⟩

/-- Witness for C1: the amended theorem applied to the escape scenario. -/
theorem searchDockerfile_escape_safety_witness :
    (∀ p, SearchDockerfile fsEscape optsEscape = .ok (some p) →
      isRelativeTo p [sg "tmp", sg "s"] = true) ∧
    (∀ ctx df a,
      firstResolved fsEscape (candidatePaths [sg "tmp", sg "s"] ctx df) = some a →
      isRelativeTo a [sg "tmp", sg "s"] = false →
      searchOne fsEscape [sg "tmp", sg "s"] ctx df =
        .error (.escapeDetected df [sg "tmp", sg "s"])) ∧
    (∀ df, optsEscape.dockerfile = some df →
      SearchDockerfile fsEscape optsEscape =
        searchOne fsEscape [sg "tmp", sg "s"]
          (optsEscape.contextDir.getD contextDirDefault) df) ∧
    (optsEscape.dockerfile = none → ∀ e,
      searchOne fsEscape [sg "tmp", sg "s"]
        (optsEscape.contextDir.getD contextDirDefault) containerfileDefault = .error e →
      SearchDockerfile fsEscape optsEscape = .error e) ∧
    (optsEscape.dockerfile = none →
      searchOne fsEscape [sg "tmp", sg "s"]
        (optsEscape.contextDir.getD contextDirDefault) containerfileDefault = .ok none →
      SearchDockerfile fsEscape optsEscape =
        searchOne fsEscape [sg "tmp", sg "s"]
          (optsEscape.contextDir.getD contextDirDefault) dockerfileDefault) :=
  searchDockerfile_escape_safety fsEscape optsEscape
    [sg "tmp", sg "s"] [sg "tmp", sg "s"] rfl rfl

theorem searchOne_first_hit (fs : DockerfileFS) (b ctx df a : GoPath)
    (h1 : fs.evalSymlinks (cleanAbs (b ++ ctx ++ df)) = .ok a)
    (hrel : isRelativeTo a b = true) :
    searchOne fs b ctx df = .ok (some a) := by
  unfold searchOne candidatePaths
  simp only [searchLoop, h1, hrel, if_true]

theorem searchOne_second_hit (fs : DockerfileFS) (b ctx df a : GoPath)
    (h1 : fs.evalSymlinks (cleanAbs (b ++ ctx ++ df)) = .notExist)
    (h2 : fs.evalSymlinks (cleanAbs (b ++ df)) = .ok a)
    (hrel : isRelativeTo a b = true) :
    searchOne fs b ctx df = .ok (some a) := by
  unfold searchOne candidatePaths
  simp only [searchLoop, h1, h2, hrel, if_true]

theorem searchOne_none (fs : DockerfileFS) (b ctx df : GoPath)
    (h1 : fs.evalSymlinks (cleanAbs (b ++ ctx ++ df)) = .notExist)
    (h2 : fs.evalSymlinks (cleanAbs (b ++ df)) = .notExist) :
    searchOne fs b ctx df = .ok none := by
  unfold searchOne candidatePaths
  simp only [searchLoop, h1, h2]

theorem searchOne_first_ioFailure (fs : DockerfileFS) (b ctx df : GoPath)
    (h1 : fs.evalSymlinks (cleanAbs (b ++ ctx ++ df)) = .ioFailure) :
    searchOne fs b ctx df =
      .error (.dockerfileSymlinkFailure (cleanAbs (b ++ ctx ++ df))) := by
  unfold searchOne candidatePaths
  simp only [searchLoop, h1]

theorem searchOne_second_ioFailure (fs : DockerfileFS) (b ctx df : GoPath)
    (h1 : fs.evalSymlinks (cleanAbs (b ++ ctx ++ df)) = .notExist)
    (h2 : fs.evalSymlinks (cleanAbs (b ++ df)) = .ioFailure) :
    searchOne fs b ctx df =
      .error (.dockerfileSymlinkFailure (cleanAbs (b ++ df))) := by
  unfold searchOne candidatePaths
  simp only [searchLoop, h1, h2]

/-- Claim C4: candidates are tried in a fixed order.  An existing contained
context-relative candidate wins; the plain source candidate is only used when
the context-relative one is missing; an explicit dockerfile is searched with
exactly that two-candidate search; with no explicit dockerfile the search runs
first for `./Containerfile` and then for `./Dockerfile`, a Containerfile hit
winning outright. -/
theorem searchDockerfile_candidate_order (fs : DockerfileFS)
    (opts : DockerfileSearchOpts) (srcAbs boundary ctx : GoPath)
    (hsrc : opts.sourceDir = some srcAbs)
    (heval : fs.evalSymlinks srcAbs = .ok boundary)
    (hctx : opts.contextDir.getD contextDirDefault = ctx) :
    (∀ df a, fs.evalSymlinks (cleanAbs (boundary ++ ctx ++ df)) = .ok a →
      isRelativeTo a boundary = true →
      searchOne fs boundary ctx df = .ok (some a)) ∧
    (∀ df a, fs.evalSymlinks (cleanAbs (boundary ++ ctx ++ df)) = .notExist →
      fs.evalSymlinks (cleanAbs (boundary ++ df)) = .ok a →
      isRelativeTo a boundary = true →
      searchOne fs boundary ctx df = .ok (some a)) ∧
    (∀ df, opts.dockerfile = some df →
      SearchDockerfile fs opts = searchOne fs boundary ctx df) ∧
    (opts.dockerfile = none → ∀ p,
      searchOne fs boundary ctx containerfileDefault = .ok (some p) →
      SearchDockerfile fs opts = .ok (some p)) ∧
    (opts.dockerfile = none →
      searchOne fs boundary ctx containerfileDefault = .ok none →
      SearchDockerfile fs opts = searchOne fs boundary ctx dockerfileDefault) := by
  have hres := SearchDockerfile_resolved fs opts srcAbs boundary hsrc heval
  rw [hctx] at hres
  refine ⟨?_, ?_, ?_, ?_, ?_⟩
  · intro df a h1 hrel
    exact searchOne_first_hit fs boundary ctx df a h1 hrel
  · intro df a h1 h2 hrel
    exact searchOne_second_hit fs boundary ctx df a h1 h2 hrel
  · intro df hdf
    rw [hres, hdf]
  · intro hdf p hp
    rw [hres, hdf, hp]
  · intro hdf hnone
    rw [hres, hdf, hnone]

/-- Witness for C4: with both build files present in both the context and the
source, the context `Containerfile` is returned, and the theorem instantiates
at this scenario. -/
theorem searchDockerfile_candidate_order_witness :
    SearchDockerfile fsPrecedence optsPrecedence =
      .ok (some [sg "s", sg "c", sg "Containerfile"]) ∧
    (∀ df a, fsPrecedence.evalSymlinks (cleanAbs ([sg "s"] ++ [sg "c"] ++ df)) = .ok a →
      isRelativeTo a [sg "s"] = true →
      searchOne fsPrecedence [sg "s"] [sg "c"] df = .ok (some a)) :=
  ⟨rfl, (searchDockerfile_candidate_order fsPrecedence optsPrecedence
    [sg "s"] [sg "s"] [sg "c"] rfl rfl rfl).1⟩

/-- Claim C7: when no candidate exists the search returns the empty sentinel
with no error, both for an explicit dockerfile and for the default
Containerfile/Dockerfile search, while a non-"does not exist" symlink
evaluation failure on a candidate is propagated as an error. -/
theorem searchDockerfile_notFound_sentinel (fs : DockerfileFS)
    (opts : DockerfileSearchOpts) (srcAbs boundary ctx : GoPath)
    (hsrc : opts.sourceDir = some srcAbs)
    (heval : fs.evalSymlinks srcAbs = .ok boundary)
    (hctx : opts.contextDir.getD contextDirDefault = ctx) :
    (∀ df, opts.dockerfile = some df →
      fs.evalSymlinks (cleanAbs (boundary ++ ctx ++ df)) = .notExist →
      fs.evalSymlinks (cleanAbs (boundary ++ df)) = .notExist →
      SearchDockerfile fs opts = .ok none) ∧
    (opts.dockerfile = none →
      fs.evalSymlinks (cleanAbs (boundary ++ ctx ++ containerfileDefault)) = .notExist →
      fs.evalSymlinks (cleanAbs (boundary ++ containerfileDefault)) = .notExist →
      fs.evalSymlinks (cleanAbs (boundary ++ ctx ++ dockerfileDefault)) = .notExist →
      fs.evalSymlinks (cleanAbs (boundary ++ dockerfileDefault)) = .notExist →
      SearchDockerfile fs opts = .ok none) ∧
    (∀ df, fs.evalSymlinks (cleanAbs (boundary ++ ctx ++ df)) = .ioFailure →
      searchOne fs boundary ctx df =
        .error (.dockerfileSymlinkFailure (cleanAbs (boundary ++ ctx ++ df)))) ∧
    (∀ df, fs.evalSymlinks (cleanAbs (boundary ++ ctx ++ df)) = .notExist →
      fs.evalSymlinks (cleanAbs (boundary ++ df)) = .ioFailure →
      searchOne fs boundary ctx df =
        .error (.dockerfileSymlinkFailure (cleanAbs (boundary ++ df)))) := by
  have hres := SearchDockerfile_resolved fs opts srcAbs boundary hsrc heval
  rw [hctx] at hres
  refine ⟨?_, ?_, ?_, ?_⟩
  · intro df hdf h1 h2
    rw [hres, hdf]
    exact searchOne_none fs boundary ctx df h1 h2
  · intro hdf h1 h2 h3 h4
    rw [hres, hdf, searchOne_none fs boundary ctx containerfileDefault h1 h2]
    exact searchOne_none fs boundary ctx dockerfileDefault h3 h4
  · intro df h1
    exact searchOne_first_ioFailure fs boundary ctx df h1
  · intro df h1 h2
    exact searchOne_second_ioFailure fs boundary ctx df h1 h2

/-- Witness for C7: the default search over an existing empty source directory
returns the not-found sentinel with no error. -/
theorem searchDockerfile_notFound_sentinel_witness :
    SearchDockerfile fsEmptyDir optsEmptyDir = .ok none :=
  (searchDockerfile_notFound_sentinel fsEmptyDir optsEmptyDir
    [sg "s"] [sg "s"] contextDirDefault rfl rfl rfl).2.1 rfl rfl rfl rfl rfl

/- ## Secret directory resolution lemmas -/

theorem acceptedEntry_eq_true (fs : SecretFS) (src : SPath) (e : DirEntry)
    (h : isRegular fs src e = .ok true) : acceptedEntry fs src e = true := by
  unfold acceptedEntry
  rw [h]

theorem acceptedEntry_eq_false (fs : SecretFS) (src : SPath) (e : DirEntry)
    (h : isRegular fs src e = .ok false) : acceptedEntry fs src e = false := by
  unfold acceptedEntry
  rw [h]

theorem codeEntryMappings_nil (fs : SecretFS) (src : SPath) (pfx : List Char) :
    codeEntryMappings fs src pfx [] = [] := rfl

theorem codeEntryMappings_cons_skip (fs : SecretFS) (src : SPath)
    (pfx : List Char) (e : DirEntry) (rest : List DirEntry)
    (h : isRegular fs src e = .ok false) :
    codeEntryMappings fs src pfx (e :: rest) = codeEntryMappings fs src pfx rest := by
  unfold codeEntryMappings
  rw [List.filter_cons, acceptedEntry_eq_false fs src e h]
  simp

theorem codeEntryMappings_cons_take (fs : SecretFS) (src : SPath)
    (pfx : List Char) (e : DirEntry) (rest : List DirEntry)
    (h : isRegular fs src e = .ok true) :
    codeEntryMappings fs src pfx (e :: rest) =
      ⟨spJoin src e.name, goJoinRel pfx e.name⟩ :: codeEntryMappings fs src pfx rest := by
  unfold codeEntryMappings
  rw [List.filter_cons, acceptedEntry_eq_true fs src e h]
  simp

theorem secretEntriesLoop_ok (fs : SecretFS) (src : SPath) (pfx : List Char) :
    ∀ (es : List DirEntry) (used : List (List Char)) (acc : List BuildahSecret)
      (used2 : List (List Char)) (acc2 : List BuildahSecret),
      secretEntriesLoop fs src pfx es used acc = .ok (used2, acc2) →
      acc2 = acc ++ codeEntryMappings fs src pfx es ∧
      (∀ i, used2.count i =
        used.count i + ((codeEntryMappings fs src pfx es).map BuildahSecret.id).count i) ∧
      ((codeEntryMappings fs src pfx es).map BuildahSecret.id).Nodup ∧
      (∀ i, i ∈ (codeEntryMappings fs src pfx es).map BuildahSecret.id → i ∉ used) := by
  intro es
  induction es with
  | nil =>
    intro used acc used2 acc2 h
    simp only [secretEntriesLoop] at h
    injection h with h
    injection h with h1 h2
    subst h1; subst h2
    simp [codeEntryMappings_nil]
  | cons e rest ih =>
    intro used acc used2 acc2 h
    simp only [secretEntriesLoop] at h
    rcases hreg : isRegular fs src e with err | b
    · rw [hreg] at h
      exact absurd h (by simp)
    · rcases b with _ | _
      · rw [hreg] at h
        rw [codeEntryMappings_cons_skip fs src pfx e rest hreg]
        exact ih used acc used2 acc2 h
      · rw [hreg] at h
        simp only at h
        by_cases hmem : goJoinRel pfx e.name ∈ used
        · rw [if_pos hmem] at h
          exact absurd h (by simp)
        · rw [if_neg hmem] at h
          obtain ⟨ha, hcnt, hnd, hfresh⟩ :=
            ih (goJoinRel pfx e.name :: used)
              (acc ++ [⟨spJoin src e.name, goJoinRel pfx e.name⟩]) used2 acc2 h
          rw [codeEntryMappings_cons_take fs src pfx e rest hreg]
          refine ⟨by simpa using ha, ?_, ?_, ?_⟩
          · intro i
            have := hcnt i
            rw [List.count_cons] at this
            simp only [List.map_cons, List.count_cons]
            omega
          · simp only [List.map_cons, List.nodup_cons]
            refine ⟨fun hctr => ?_, hnd⟩
            exact hfresh _ hctr (by simp)
          · intro i hi
            simp only [List.map_cons, List.mem_cons] at hi
            rcases hi with hi | hi
            · rw [hi]; exact hmem
            · intro hctr
              exact hfresh i hi (by simp [hctr])

theorem codeSecretMappings_nil (fs : SecretFS) : codeSecretMappings fs [] = [] := rfl

theorem codeSecretMappings_cons_ok (fs : SecretFS) (d : SecretDir)
    (rest : List SecretDir) (entries : List DirEntry)
    (hread : fs.readDir d.src = .ok entries) :
    codeSecretMappings fs (d :: rest) =
      codeEntryMappings fs d.src (idPrefix d) entries ++ codeSecretMappings fs rest := by
  unfold codeSecretMappings
  simp [List.flatMap_cons, hread]

theorem codeSecretMappings_cons_notExist (fs : SecretFS) (d : SecretDir)
    (rest : List SecretDir) (hread : fs.readDir d.src = .notExist) :
    codeSecretMappings fs (d :: rest) = codeSecretMappings fs rest := by
  unfold codeSecretMappings
  simp [List.flatMap_cons, hread]

theorem secretDirsLoop_ok (fs : SecretFS) :
    ∀ (dirs : List SecretDir) (used : List (List Char))
      (acc out : List BuildahSecret),
      secretDirsLoop fs dirs used acc = .ok out →
      out = acc ++ codeSecretMappings fs dirs ∧
      (∀ i, i ∈ (codeSecretMappings fs dirs).map BuildahSecret.id → i ∉ used) ∧
      ((codeSecretMappings fs dirs).map BuildahSecret.id).Nodup := by
  intro dirs
  induction dirs with
  | nil =>
    intro used acc out h
    simp only [secretDirsLoop] at h
    injection h with h
    subst h
    simp [codeSecretMappings_nil]
  | cons d rest ih =>
    intro used acc out h
    simp only [secretDirsLoop] at h
    split at h
    · rename_i heq
      rw [codeSecretMappings_cons_notExist fs d rest heq]
      split at h
      · exact ih used acc out h
      · exact absurd h (by simp)
    · exact absurd h (by simp)
    · rename_i entries heq
      rw [codeSecretMappings_cons_ok fs d rest entries heq]
      rcases hloop : secretEntriesLoop fs d.src (idPrefix d) entries used acc
          with e' | ua
      · rw [hloop] at h
        have h2 : (Except.error e' : Except SecretError (List BuildahSecret))
            = .ok out := h
        exact absurd h2 (by simp)
      · rw [hloop] at h
        have h2 : secretDirsLoop fs rest ua.1 ua.2 = .ok out := h
        obtain ⟨ha, hcnt, hndD, hfreshD⟩ :=
          secretEntriesLoop_ok fs d.src (idPrefix d) entries used acc ua.1 ua.2 hloop
        obtain ⟨hout, hfreshR, hndR⟩ := ih ua.1 ua.2 out h2
        have hmemD : ∀ i,
            i ∈ (codeEntryMappings fs d.src (idPrefix d) entries).map BuildahSecret.id →
            i ∈ ua.1 := by
          intro i hi
          rw [← List.count_pos_iff, hcnt i]
          have : 0 < ((codeEntryMappings fs d.src (idPrefix d) entries).map
              BuildahSecret.id).count i := List.count_pos_iff.mpr hi
          omega
        refine ⟨?_, ?_, ?_⟩
        · rw [hout, ha]
          simp
        · intro i hi
          rw [List.map_append, List.mem_append] at hi
          rcases hi with hi | hi
          · exact hfreshD i hi
          · intro hctr
            have hmem : i ∈ ua.1 := by
              rw [← List.count_pos_iff, hcnt i]
              have : 0 < used.count i := List.count_pos_iff.mpr hctr
              omega
            exact hfreshR i hi hmem
        · rw [List.map_append, List.nodup_append]
          refine ⟨hndD, hndR, ?_⟩
          intro i hiD hiR
          exact hfreshR i hiR (hmemD i hiD)

theorem readEntries_eq (fs : SecretFS) (d : SecretDir) (entries : List DirEntry)
    (h : fs.readDir d.src = .ok entries) : readEntries fs d = entries := by
  unfold readEntries
  rw [h]

theorem isRegular_ne_error (fs : SecretFS) (src : SPath) (e : DirEntry)
    (hstat : e.etype = .symlink → fs.stat (spJoin src e.name) ≠ .statFailure)
    (err : SecretError) : isRegular fs src e ≠ .error err := by
  rcases he : e.etype with _ | _ | _ | _
  · simp [isRegular, he]
  · rcases hs : fs.stat (spJoin src e.name) with b | _
    · simp [isRegular, he, hs]
    · exact absurd hs (hstat he)
  · simp [isRegular, he]
  · simp [isRegular, he]

theorem secretEntriesLoop_error (fs : SecretFS) (src : SPath) (pfx : List Char) :
    ∀ (es : List DirEntry) (used : List (List Char)) (acc : List BuildahSecret)
      (e : SecretError),
      (∀ en ∈ es, en.etype = .symlink → fs.stat (spJoin src en.name) ≠ .statFailure) →
      secretEntriesLoop fs src pfx es used acc = .error e →
      ∃ i, e = .duplicateSecretID i ∧
        2 ≤ used.count i +
          ((codeEntryMappings fs src pfx es).map BuildahSecret.id).count i := by
  intro es
  induction es with
  | nil =>
    intro used acc e _ h
    simp [secretEntriesLoop] at h
  | cons en rest ih =>
    intro used acc e hstat h
    simp only [secretEntriesLoop] at h
    rcases hreg : isRegular fs src en with err | b
    · exact absurd hreg (isRegular_ne_error fs src en (hstat en (by simp)) err)
    · rcases b with _ | _
      · rw [hreg] at h
        rw [codeEntryMappings_cons_skip fs src pfx en rest hreg]
        exact ih used acc e (fun x hx => hstat x (by simp [hx])) h
      · rw [hreg] at h
        simp only at h
        by_cases hmem : goJoinRel pfx en.name ∈ used
        · rw [if_pos hmem] at h
          injection h with h3
          refine ⟨goJoinRel pfx en.name, h3.symm, ?_⟩
          have h4 : 0 < used.count (goJoinRel pfx en.name) :=
            List.count_pos_iff.mpr hmem
          rw [codeEntryMappings_cons_take fs src pfx en rest hreg]
          simp only [List.map_cons, List.count_cons_self]
          omega
        · rw [if_neg hmem] at h
          obtain ⟨i, hei, hcount⟩ :=
            ih (goJoinRel pfx en.name :: used)
              (acc ++ [⟨spJoin src en.name, goJoinRel pfx en.name⟩]) e
              (fun x hx => hstat x (by simp [hx])) h
          refine ⟨i, hei, ?_⟩
          rw [codeEntryMappings_cons_take fs src pfx en rest hreg]
          rw [List.count_cons] at hcount
          simp only [List.map_cons, List.count_cons]
          omega

theorem secretDirsLoop_error (fs : SecretFS) :
    ∀ (dirs : List SecretDir) (used : List (List Char))
      (acc : List BuildahSecret) (e : SecretError),
      goodSecretRun fs dirs →
      secretDirsLoop fs dirs used acc = .error e →
      ∃ i, e = .duplicateSecretID i ∧
        2 ≤ used.count i +
          ((codeSecretMappings fs dirs).map BuildahSecret.id).count i := by
  intro dirs
  induction dirs with
  | nil =>
    intro used acc e _ h
    simp [secretDirsLoop] at h
  | cons d rest ih =>
    intro used acc e hgood h
    obtain ⟨_, hnoRF, hopt, hent⟩ := hgood d (by simp)
    have hgrest : goodSecretRun fs rest := fun x hx => hgood x (by simp [hx])
    simp only [secretDirsLoop] at h
    split at h
    · rename_i heq
      rw [if_pos (hopt heq)] at h
      rw [codeSecretMappings_cons_notExist fs d rest heq]
      exact ih used acc e hgrest h
    · rename_i heq
      exact absurd heq hnoRF
    · rename_i entries heq
      rw [codeSecretMappings_cons_ok fs d rest entries heq]
      have hstat : ∀ en ∈ entries, en.etype = .symlink →
          fs.stat (spJoin d.src en.name) ≠ .statFailure := by
        intro en hen hsym
        exact (hent en (by rw [readEntries_eq fs d entries heq]; exact hen)).2 hsym
      rcases hloop : secretEntriesLoop fs d.src (idPrefix d) entries used acc
          with e' | ua
      · rw [hloop] at h
        have h2 : (Except.error e' : Except SecretError (List BuildahSecret))
            = .error e := h
        injection h2 with h3
        subst h3
        obtain ⟨i, hei, hcount⟩ :=
          secretEntriesLoop_error fs d.src (idPrefix d) entries used acc e'
            hstat hloop
        refine ⟨i, hei, ?_⟩
        rw [List.map_append, List.count_append]
        omega
      · rw [hloop] at h
        have h2 : secretDirsLoop fs rest ua.1 ua.2 = .error e := h
        obtain ⟨_, hcnt, _, _⟩ :=
          secretEntriesLoop_ok fs d.src (idPrefix d) entries used acc ua.1 ua.2 hloop
        obtain ⟨i, hei, hcount⟩ := ih ua.1 ua.2 e hgrest h2
        refine ⟨i, hei, ?_⟩
        rw [List.map_append, List.count_append]
        have := hcnt i
        omega

theorem splitSlash_no_slash (a : List Char) (h : '/' ∉ a) : splitSlash a = [a] := by
  induction a with
  | nil => rfl
  | cons c rest ih =>
    have hc : c ≠ '/' := fun hctr => h (by simp [hctr])
    have hrest : '/' ∉ rest := fun hctr => h (by simp [hctr])
    simp only [splitSlash]
    rw [if_neg hc, ih hrest]

theorem splitSlash_append (a b : List Char) (ha : '/' ∉ a) :
    splitSlash (a ++ '/' :: b) = a :: splitSlash b := by
  induction a with
  | nil => simp [splitSlash]
  | cons c rest ih =>
    have hc : c ≠ '/' := fun hctr => ha (by simp [hctr])
    have hrest : '/' ∉ rest := fun hctr => ha (by simp [hctr])
    simp only [List.cons_append, splitSlash, List.append_eq]
    rw [if_neg hc, ih hrest]

theorem goCleanSegs_pair (a b : Seg) (ha : canonSeg a) (hb : canonSeg b) :
    goCleanSegs false [a, b] = [a, b] := by
  obtain ⟨hane, _, had, hadd⟩ := ha
  obtain ⟨hbne, _, hbd, hbdd⟩ := hb
  simp [goCleanSegs, goCleanStep, hane, had, hadd, hbne, hbd, hbdd]

/-- `filepath.Join` of a canonical prefix and a canonical name is the literal
concatenation with a separator: cleaning does not alter it. -/
theorem goJoinRel_canon (a b : List Char) (ha : canonSeg a) (hb : canonSeg b) :
    goJoinRel a b = a ++ '/' :: b := by
  have hasl := ha.2.1
  have hbsl := hb.2.1
  unfold goJoinRel goClean
  rw [splitSlash_append a b hasl, splitSlash_no_slash b hbsl]
  rw [goCleanSegs_pair a b ha hb]
  rcases hae : a with _ | ⟨c, rest⟩
  · exact absurd hae ha.1
  · have hc : c ≠ '/' := fun hctr => hasl (by rw [hae]; simp [hctr])
    rw [if_neg (by simp [hc])]
    simp [joinSlash]

theorem specSecretMappings_eq_code (fs : SecretFS) :
    ∀ dirs : List SecretDir,
      (∀ d ∈ dirs, canonSeg (idPrefix d) ∧ ∀ e ∈ readEntries fs d, canonSeg e.name) →
      specSecretMappings fs dirs = codeSecretMappings fs dirs := by
  intro dirs
  induction dirs with
  | nil => intro _; rfl
  | cons d rest ih =>
    intro hc
    obtain ⟨hpfx, hnames⟩ := hc d (by simp)
    have hrest : ∀ x ∈ rest,
        canonSeg (idPrefix x) ∧ ∀ e ∈ readEntries fs x, canonSeg e.name :=
      fun x hx => hc x (by simp [hx])
    unfold specSecretMappings codeSecretMappings
    simp only [List.flatMap_cons]
    congr 1
    · rcases hread : fs.readDir d.src with entries | _ | _
      · simp only
        unfold codeEntryMappings
        apply List.map_congr_left
        intro e he
        have hname : canonSeg e.name := by
          refine (hnames e ?_).imp id id
          rw [readEntries_eq fs d entries hread]
          exact (List.mem_filter.mp he).1
        rw [goJoinRel_canon (idPrefix d) e.name hpfx hname]
      · rfl
      · rfl
    · exact ih hrest

/-- Claim C3: in every successful resolution the ids are pairwise distinct
across the whole result set, and on a well-behaved run where two entries
would produce the same id the resolution fails with `duplicateSecretID`
naming an id that indeed occurs at least twice, returning no mappings. -/
theorem processSecretDirs_duplicate_ids (fs : SecretFS) (dirs : List SecretDir) :
    (∀ out, processSecretDirs fs dirs = .ok out →
      (out.map BuildahSecret.id).Nodup) ∧
    (goodSecretRun fs dirs →
      ¬ ((specSecretMappings fs dirs).map BuildahSecret.id).Nodup →
      ∃ i, processSecretDirs fs dirs = .error (.duplicateSecretID i) ∧
        2 ≤ ((specSecretMappings fs dirs).map BuildahSecret.id).count i) := by
  constructor
  · intro out h
    obtain ⟨hout, _, hnd⟩ := secretDirsLoop_ok fs dirs [] [] out h
    rw [hout]
    simpa using hnd
  · intro hgood hdup
    have hcanon : ∀ d ∈ dirs, canonSeg (idPrefix d) ∧
        ∀ e ∈ readEntries fs d, canonSeg e.name := by
      intro d hd
      obtain ⟨h1, _, _, h4⟩ := hgood d hd
      exact ⟨h1, fun e he => (h4 e he).1⟩
    rw [specSecretMappings_eq_code fs dirs hcanon] at hdup ⊢
    rcases hres : processSecretDirs fs dirs with e | out
    · obtain ⟨i, hei, hcnt⟩ := secretDirsLoop_error fs dirs [] [] e hgood hres
      refine ⟨i, by rw [hei], ?_⟩
      simpa using hcnt
    · obtain ⟨_, _, hnd⟩ := secretDirsLoop_ok fs dirs [] [] out hres
      exact absurd hnd hdup

/-- Witness for C3: resolving `a/secret1` and `b/secret1`, both holding a file
`token` and with no aliases, fails with `duplicateSecretID`. -/
theorem processSecretDirs_duplicate_ids_witness :
    ∃ i, processSecretDirs fsDup dirsDup = .error (.duplicateSecretID i) ∧
      2 ≤ ((specSecretMappings fsDup dirsDup).map BuildahSecret.id).count i :=
  (processSecretDirs_duplicate_ids fsDup dirsDup).2 (by decide) (by decide)

/-- Claim C6: a regular entry is accepted, a symlink entry resolves to its
stat answer, a directory entry is rejected without error, a rejected entry is
skipped (no mapping, no error), a missing optional directory is skipped
silently, and a missing non-optional directory fails with
`secretDirUnreadable`. -/
theorem processSecretDirs_entry_acceptance (fs : SecretFS) (d : SecretDir)
    (rest : List SecretDir) (e : DirEntry) (b : Bool) :
    (e.etype = .regular → isRegular fs d.src e = .ok true) ∧
    (e.etype = .symlink → fs.stat (spJoin d.src e.name) = .ok b →
      isRegular fs d.src e = .ok b) ∧
    (e.etype = .directory → isRegular fs d.src e = .ok false) ∧
    (∀ pfx es used acc, isRegular fs d.src e = .ok false →
      secretEntriesLoop fs d.src pfx (e :: es) used acc =
        secretEntriesLoop fs d.src pfx es used acc) ∧
    (fs.readDir d.src = .notExist → d.optional = true →
      processSecretDirs fs (d :: rest) = processSecretDirs fs rest) ∧
    (fs.readDir d.src = .notExist → d.optional = false →
      processSecretDirs fs (d :: rest) = .error (.secretDirUnreadable d.src)) := by
  refine ⟨?_, ?_, ?_, ?_, ?_, ?_⟩
  · intro he
    simp [isRegular, he]
  · intro he hs
    simp [isRegular, he, hs]
  · intro he
    simp [isRegular, he]
  · intro pfx es used acc hreg
    simp [secretEntriesLoop, hreg]
  · intro hread hopt
    unfold processSecretDirs
    simp [secretDirsLoop, hread, hopt]
  · intro hread hopt
    unfold processSecretDirs
    simp [secretDirsLoop, hread, hopt]

/-- Witness for C6: in a Kubernetes-style volume the `token` symlink to a
regular file is accepted and the `data` symlink to a directory is rejected;
the whole resolution succeeds with exactly the `token` mapping. -/
theorem processSecretDirs_entry_acceptance_witness :
    isRegular fsK8s secDirK8s.src ⟨sg "token", .symlink⟩ = .ok true ∧
    isRegular fsK8s secDirK8s.src ⟨sg "data", .symlink⟩ = .ok false ∧
    processSecretDirs fsK8s [secDirK8s] =
      .ok [⟨⟨false, [sg "sec", sg "token"]⟩, sg "sec/token"⟩] :=
  ⟨(processSecretDirs_entry_acceptance fsK8s secDirK8s []
      ⟨sg "token", .symlink⟩ true).2.1 rfl rfl,
   (processSecretDirs_entry_acceptance fsK8s secDirK8s []
      ⟨sg "data", .symlink⟩ false).2.1 rfl rfl,
   rfl⟩

/-- Claim C8 (amended): every successful resolution consists, for each spec in
order and each accepted entry in listing order, of the mapping with source
`src/filename` (verbatim, so relative when `src` is relative) and id
`idPrefix + "/" + filename`; sources only become absolute in the later
`MakePathsAbsolute` argument-assembly step. -/
theorem processSecretDirs_mapping_shape (fs : SecretFS) (dirs : List SecretDir)
    (hc : ∀ d ∈ dirs, canonSeg (idPrefix d) ∧ ∀ e ∈ readEntries fs d, canonSeg e.name) :
    ∀ out, processSecretDirs fs dirs = .ok out →
      out = specSecretMappings fs dirs ∧
      ∀ base m, m ∈ makeSecretsAbsolute base out → m.src.abs = true := by
  intro out h
  obtain ⟨hout, _, _⟩ := secretDirsLoop_ok fs dirs [] [] out h
  constructor
  · rw [hout, specSecretMappings_eq_code fs dirs hc]
    simp
  · intro base m hm
    unfold makeSecretsAbsolute at hm
    obtain ⟨s, _, hs⟩ := List.mem_map.mp hm
    rw [← hs]
    unfold ensureAbsolute
    by_cases habs : s.src.abs = true
    · simp [habs]
    · simp [habs]

/-- Claim C8 counterexample: with the relative source directory `a`, the
successful resolution returns the mapping source `a/token`, whose path is not
absolute, refuting that every returned src is an absolute path. -/
theorem processSecretDirs_relative_src_counterexample :
    processSecretDirs fsRelSecret [dirRelSecret] =
      .ok [⟨⟨false, [sg "a", sg "token"]⟩, sg "a/token"⟩] ∧
    (⟨false, [sg "a", sg "token"]⟩ : SPath).abs = false :=
  ⟨rfl, rfl⟩

/-- Witness for C8: the amended theorem applied to the Kubernetes-style
scenario. -/
theorem processSecretDirs_mapping_shape_witness :
    ([⟨⟨false, [sg "sec", sg "token"]⟩, sg "sec/token"⟩] : List BuildahSecret) =
      specSecretMappings fsK8s [secDirK8s] ∧
    ∀ base m, m ∈ makeSecretsAbsolute base
      [(⟨⟨false, [sg "sec", sg "token"]⟩, sg "sec/token"⟩ : BuildahSecret)] →
      m.src.abs = true :=
  processSecretDirs_mapping_shape fsK8s [secDirK8s] (by decide)
    [⟨⟨false, [sg "sec", sg "token"]⟩, sg "sec/token"⟩] rfl

/- ## Registry credential selection lemmas -/

theorem lastSlashCut_shrink :
    ∀ (k k' : List Char), lastSlashCut k = some k' → k'.length < k.length := by
  intro k
  induction k with
  | nil => intro k' h; simp [lastSlashCut] at h
  | cons c rest ih =>
    intro k' h
    simp only [lastSlashCut] at h
    split at h
    · rename_i k2 heq
      injection h with h
      subst h
      have := ih k2 heq
      simp only [List.length_cons]
      omega
    · split at h
      · injection h with h
        subst h
        simp
      · exact absurd h (by simp)

theorem lastSlashCut_ancestor :
    ∀ (k k' : List Char), lastSlashCut k = some k' → k' <+: k := by
  intro k
  induction k with
  | nil => intro k' h; simp [lastSlashCut] at h
  | cons c rest ih =>
    intro k' h
    simp only [lastSlashCut] at h
    split at h
    · rename_i k2 heq
      injection h with h
      subst h
      exact (List.prefix_cons_inj c).mpr (ih k2 heq)
    · split at h
      · injection h with h
        subst h
        exact List.nil_prefix
      · exact absurd h (by simp)

theorem lastSlashCut_none_takeWhile :
    ∀ k : List Char, lastSlashCut k = none →
      k.takeWhile (fun c => c != '/') = k := by
  intro k
  induction k with
  | nil => intro _; rfl
  | cons c rest ih =>
    intro h
    simp only [lastSlashCut] at h
    split at h
    · exact absurd h (by simp)
    · rename_i heq
      split at h
      · exact absurd h (by simp)
      · rename_i hc
        simp only [List.takeWhile_cons]
        rw [if_pos (by simpa using hc), ih heq]

theorem lastSlashCut_takeWhile :
    ∀ (k k' : List Char), lastSlashCut k = some k' →
      k'.takeWhile (fun c => c != '/') = k.takeWhile (fun c => c != '/') := by
  intro k
  induction k with
  | nil => intro k' h; simp [lastSlashCut] at h
  | cons c rest ih =>
    intro k' h
    simp only [lastSlashCut] at h
    split at h
    · rename_i k2 heq
      injection h with h
      subst h
      by_cases hc : c = '/'
      · subst hc
        simp [List.takeWhile_cons]
      · simp only [List.takeWhile_cons]
        rw [if_pos (by simpa using hc), if_pos (by simpa using hc), ih k2 heq]
    · split at h
      · rename_i hc
        injection h with h
        subst h
        simp only [List.takeWhile_cons, List.takeWhile_nil]
        rw [if_neg (by simp [hc])]
      · exact absurd h (by simp)

theorem findAuthWalkAux_eq_chain (auths : AuthMap) :
    ∀ (n : Nat) (key : List Char), key.length < n →
      findAuthWalkAux auths n key = chainFirstHit auths (authChainAux n key) := by
  intro n
  induction n with
  | zero => intro key h; omega
  | succ n ih =>
    intro key hlen
    simp only [findAuthWalkAux, authChainAux, chainFirstHit]
    rcases hl : auths.lookup key with _ | a
    · rcases hc : lastSlashCut key with _ | k'
      · rfl
      · have hlt := lastSlashCut_shrink key k' hc
        exact ih k' (by omega)
    · rfl

theorem authChainAux_head (n : Nat) (key : List Char) :
    ∃ t, authChainAux (n + 1) key = key :: t := by
  simp only [authChainAux]
  exact ⟨_, rfl⟩

theorem authChainAux_ancestors :
    ∀ (n : Nat) (key : List Char), key.length < n →
      ∀ k ∈ authChainAux n key, k <+: key := by
  intro n
  induction n with
  | zero => intro key h; omega
  | succ n ih =>
    intro key hlen k hk
    simp only [authChainAux] at hk
    rw [List.mem_cons] at hk
    rcases hk with hk | hk
    · subst hk; exact List.prefix_refl _
    · split at hk
      · rename_i k' heq
        have hlt := lastSlashCut_shrink key k' heq
        exact (ih k' (by omega) k hk).trans (lastSlashCut_ancestor key k' heq)
      · simp at hk

theorem authChainAux_sorted :
    ∀ (n : Nat) (key : List Char), key.length < n →
      (authChainAux n key).Chain' (fun a b => b.length < a.length) := by
  intro n
  induction n with
  | zero => intro key h; omega
  | succ n ih =>
    intro key hlen
    simp only [authChainAux]
    rcases hc : lastSlashCut key with _ | k'
    · show ([key] : List (List Char)).Chain' (fun a b => b.length < a.length)
      simp
    · have hlt := lastSlashCut_shrink key k' hc
      show (key :: authChainAux n k').Chain' (fun a b => b.length < a.length)
      rw [List.chain'_cons']
      refine ⟨?_, ih k' (by omega)⟩
      intro y hy
      rcases n with _ | m
      · omega
      · obtain ⟨t, ht⟩ := authChainAux_head m k'
        rw [ht] at hy
        simp at hy
        subst hy
        exact hlt

theorem authChainAux_last :
    ∀ (n : Nat) (key : List Char), key.length < n →
      (authChainAux n key).getLast? =
        some (key.takeWhile (fun c => c != '/')) := by
  intro n
  induction n with
  | zero => intro key h; omega
  | succ n ih =>
    intro key hlen
    simp only [authChainAux]
    rcases hc : lastSlashCut key with _ | k'
    · show ([key] : List (List Char)).getLast? =
        some (key.takeWhile (fun c => c != '/'))
      simp [lastSlashCut_none_takeWhile key hc]
    · have hlt := lastSlashCut_shrink key k' hc
      show (key :: authChainAux n k').getLast? =
        some (key.takeWhile (fun c => c != '/'))
      rcases n with _ | m
      · omega
      · obtain ⟨t, ht⟩ := authChainAux_head m k'
        rw [ht, List.getLast?_cons_cons, ← ht, ih k' (by omega)]
        rw [lastSlashCut_takeWhile key k' hc]

/-- Claim C2: the lookup loop realizes longest-prefix-first matching: it
equals the first hit over the chain of scope keys obtained by repeatedly
stripping the last segment, every chain element is a prefix of the
repository, the chain is strictly decreasing in length and ends at the bare
registry; the docker.io index scope is tried only when no chain key was
present at all, and otherwise the selection fails with `authNotConfigured`
naming the repository, returning on success the first `/`-segment as registry
and the matched auth string as token. -/
theorem selectRegistryAuth_longest_match (auths : AuthMap)
    (imageRef repo : List Char) (hname : GetImageName imageRef = repo)
    (hrepo : repo ≠ []) :
    findAuthWalk auths repo = chainFirstHit auths (authChain repo) ∧
    (∀ k ∈ authChain repo, k <+: repo) ∧
    (authChain repo).Chain' (fun a b => b.length < a.length) ∧
    (authChain repo).getLast? = some (repo.takeWhile (fun c => c != '/')) ∧
    SelectRegistryAuth auths imageRef =
      (match chainFirstHit auths (authChain repo) with
       | some t =>
         if t = [] then .error (.authNotConfigured repo)
         else .ok ⟨repo.takeWhile (fun c => c != '/'), t⟩
       | none =>
         if repo.takeWhile (fun c => c != '/') = dockerIoKey then
           match auths.lookup indexDockerIoKey with
           | some t =>
             if t = [] then .error (.authNotConfigured repo)
             else .ok ⟨repo.takeWhile (fun c => c != '/'), t⟩
           | none => .error (.authNotConfigured repo)
         else .error (.authNotConfigured repo)) := by
  have hwalk : findAuthWalk auths repo = chainFirstHit auths (authChain repo) :=
    findAuthWalkAux_eq_chain auths (repo.length + 1) repo (by omega)
  refine ⟨hwalk, ?_, ?_, ?_, ?_⟩
  · exact authChainAux_ancestors (repo.length + 1) repo (by omega)
  · exact authChainAux_sorted (repo.length + 1) repo (by omega)
  · exact authChainAux_last (repo.length + 1) repo (by omega)
  · unfold SelectRegistryAuth
    rw [hname]
    rw [if_neg hrepo]
    unfold findAuth
    rw [hwalk]
    rcases hhit : chainFirstHit auths (authChain repo) with _ | t
    · by_cases hreg : repo.takeWhile (fun c => c != '/') = dockerIoKey
      · rcases hidx : auths.lookup indexDockerIoKey with _ | t
        · simp [hreg]
        · by_cases ht : t = []
          · simp [hreg, ht]
          · simp [hreg, ht]
      · simp [hreg]
    · by_cases ht : t = []
      · simp [ht]
      · simp [ht]

/-- Witness for C2: with scopes `reg.io` and `reg.io/foo/bar`, the reference
`reg.io/foo/bar/baz:v1` selects the longer scope's token, and the theorem
instantiates on it. -/
theorem selectRegistryAuth_longest_match_witness :
    SelectRegistryAuth authsPrefix refPrefix = .ok ⟨sg "reg.io", sg "tokB"⟩ ∧
    findAuthWalk authsPrefix (sg "reg.io/foo/bar/baz") =
      chainFirstHit authsPrefix (authChain (sg "reg.io/foo/bar/baz")) :=
  ⟨rfl, (selectRegistryAuth_longest_match authsPrefix refPrefix
      (sg "reg.io/foo/bar/baz") rfl (by decide)).1⟩

/- ## Structured package-input transformation lemmas -/

theorem jSize_pos (v : JValue) : 1 ≤ jSize v := by
  rcases v with _ | b | l | st | elems | fields <;> simp [jSize]

theorem jSizeList_le_of_mem (x : JValue) :
    ∀ elems : List JValue, x ∈ elems → jSize x ≤ jSizeList elems := by
  intro elems
  induction elems with
  | nil => intro h; simp at h
  | cons y ys ih =>
    intro h
    rw [List.mem_cons] at h
    rcases h with h | h
    · subst h
      simp only [jSizeList]
      omega
    · have := ih h
      simp only [jSizeList]
      omega

theorem jLookup_jSizeFields (k : List Char) (v : JValue) :
    ∀ fields : List (List Char × JValue),
      jLookup k fields = some v → jSize v ≤ jSizeFields fields := by
  intro fields
  induction fields with
  | nil => intro h; simp [jLookup] at h
  | cons ab rest ih =>
    obtain ⟨a, b⟩ := ab
    intro h
    simp only [jLookup] at h
    split at h
    · injection h with h
      subst h
      simp only [jSizeFields]
      omega
    · have := ih h
      simp only [jSizeFields]
      omega

theorem containsRPMAux_iff :
    ∀ (n : Nat) (v : JValue), jSize v ≤ n →
      (containsRPMAux n v = true ↔ SpecFindsRPM v) := by
  intro n
  induction n with
  | zero => intro v h; have := jSize_pos v; omega
  | succ n ih =>
    intro v hv
    rcases v with _ | b | l | st | elems | fields
    · simp only [containsRPMAux]
      constructor
      · intro h; simp at h
      · intro h; cases h
    · simp only [containsRPMAux]
      constructor
      · intro h; simp at h
      · intro h; cases h
    · simp only [containsRPMAux]
      constructor
      · intro h; simp at h
      · intro h; cases h
    · simp only [containsRPMAux]
      constructor
      · intro h; simp at h
      · intro h; cases h
    · simp only [containsRPMAux]
      rw [List.any_eq_true]
      have hsz : jSize (JValue.arr elems) = 1 + jSizeList elems := rfl
      constructor
      · rintro ⟨x, hx, hax⟩
        have hb : jSize x ≤ n := by
          have := jSizeList_le_of_mem x elems hx
          omega
        exact SpecFindsRPM.arrElem elems x hx ((ih x hb).mp hax)
      · intro h
        cases h with
        | arrElem elems x hx hfind =>
          have hb : jSize x ≤ n := by
            have := jSizeList_le_of_mem x elems hx
            omega
          exact ⟨x, hx, (ih x hb).mpr hfind⟩
    · simp only [containsRPMAux]
      rw [Bool.or_eq_true]
      have hsz : jSize (JValue.obj fields) = 1 + jSizeFields fields := rfl
      constructor
      · intro h
        rcases h with h | h
        · rcases hl : jLookup pkgKey fields with _ | pv
          · rw [hl] at h
            simp at h
          · rw [hl] at h
            rcases pv with _ | b | l2 | st | ps | flds
            · simp at h
            · simp at h
            · simp at h
            · simp at h
            · have h2 : ps.any (containsRPMAux n) = true := h
              rw [List.any_eq_true] at h2
              obtain ⟨p, hp, hap⟩ := h2
              have hps : jSize (JValue.arr ps) ≤ jSizeFields fields :=
                jLookup_jSizeFields pkgKey (JValue.arr ps) fields hl
              have hb : jSize p ≤ n := by
                have h3 := jSizeList_le_of_mem p ps hp
                have h4 : jSize (JValue.arr ps) = 1 + jSizeList ps := rfl
                omega
              exact SpecFindsRPM.pkgElem fields ps p hl hp ((ih p hb).mp hap)
            · simp at h
        · rcases hl : jLookup typeKey fields with _ | tv
          · rw [hl] at h
            simp at h
          · rw [hl] at h
            rcases tv with _ | b | l2 | st | ps | flds
            · simp at h
            · simp at h
            · simp at h
            · have h2 : decide (st = rpmStr) = true := h
              have h3 := of_decide_eq_true h2
              subst h3
              exact SpecFindsRPM.leaf fields hl
            · simp at h
            · simp at h
      · intro h
        cases h with
        | pkgElem fields ps p hl hp hfind =>
          left
          rw [hl]
          show ps.any (containsRPMAux n) = true
          rw [List.any_eq_true]
          have hps : jSize (JValue.arr ps) ≤ jSizeFields fields :=
            jLookup_jSizeFields pkgKey (JValue.arr ps) fields hl
          have hb : jSize p ≤ n := by
            have h3 := jSizeList_le_of_mem p ps hp
            have h4 : jSize (JValue.arr ps) = 1 + jSizeList ps := rfl
            omega
          exact ⟨p, hp, (ih p hb).mpr hfind⟩
        | leaf fields hl =>
          right
          rw [hl]
          show decide (rpmStr = rpmStr) = true
          simp

/-- Claim C9 (amended): `containsRPM` returns true exactly when an object
carrying `"type": "rpm"` is reachable through array elements and `"packages"`
array elements — where, unlike in the injection functions, an object with
both a `"packages"` array and a matching `"type"` field is itself still a
match. -/
theorem containsRPM_iff_specFinds (v : JValue) :
    containsRPM v = true ↔ SpecFindsRPM v :=
  containsRPMAux_iff (jSize v + 1) v (by omega)

/-- Claim C9 counterexample: the object with an empty `"packages"` array and
`"type": "rpm"` is detected by `containsRPM`, but the traversal shape shared
with the injection functions finds no leaf match in it: the object itself is
not a leaf (it carries a `"packages"` array) and the array holds no
elements. -/
theorem containsRPM_shared_shape_counterexample :
    containsRPM rpmWithPackages = true ∧ ¬ SpecFindsRPMStrict rpmWithPackages := by
  constructor
  · rfl
  · intro h
    rw [show rpmWithPackages = .obj [(pkgKey, .arr []), (typeKey, .str rpmStr)]
      from rfl] at h
    cases h with
    | pkgElem flds ps p hl hp hfind =>
      have h2 : (some (JValue.arr []) : Option JValue) = some (.arr ps) := hl
      injection h2 with h3
      injection h3 with h4
      rw [← h4] at hp
      simp at hp
    | leaf flds hl hnp =>
      exact hnp [] rfl

theorem jLookup_jSet_self (k : List Char) (v : JValue) :
    ∀ fields, jLookup k (jSet k v fields) = some v := by
  intro fields
  induction fields with
  | nil => simp [jSet, jLookup]
  | cons ab rest ih =>
    obtain ⟨a, b⟩ := ab
    simp only [jSet]
    by_cases ha : a = k
    · rw [if_pos ha]
      simp [jLookup, ha]
    · rw [if_neg ha]
      simp [jLookup, ha, ih]

theorem jLookup_jSet_other (k k' : List Char) (v : JValue) (hne : k ≠ k') :
    ∀ fields, jLookup k (jSet k' v fields) = jLookup k fields := by
  intro fields
  induction fields with
  | nil =>
    simp only [jSet, jLookup]
    rw [if_neg (fun h => hne h.symm)]
  | cons ab rest ih =>
    obtain ⟨a, b⟩ := ab
    simp only [jSet]
    by_cases ha : a = k'
    · rw [if_pos ha]
      subst ha
      simp only [jLookup]
      rw [if_neg (fun h => hne h.symm), if_neg (fun h => hne h.symm)]
    · rw [if_neg ha]
      simp only [jLookup]
      by_cases hak : a = k
      · rw [if_pos hak, if_pos hak]
      · rw [if_neg hak, if_neg hak, ih]

theorem jLookup_none_keys (k : List Char) :
    ∀ fields : List (List Char × JValue),
      k ∉ fields.map Prod.fst → jLookup k fields = none := by
  intro fields
  induction fields with
  | nil => intro _; rfl
  | cons ab rest ih =>
    obtain ⟨a, b⟩ := ab
    intro h
    simp only [List.map_cons, List.mem_cons] at h
    push_neg at h
    simp only [jLookup]
    rw [if_neg (fun hc => h.1 hc.symm)]
    exact ih h.2

theorem jLookup_jCopy (k : List Char) :
    ∀ (src dst : List (List Char × JValue)), (src.map Prod.fst).Nodup →
      jLookup k (jCopy dst src) = (jLookup k src).or (jLookup k dst) := by
  intro src
  induction src with
  | nil =>
    intro dst _
    simp [jCopy, jLookup, Option.or]
  | cons ab rest ih =>
    intro dst hnd
    obtain ⟨a, b⟩ := ab
    simp only [List.map_cons, List.nodup_cons] at hnd
    have hstep : jCopy dst ((a, b) :: rest) = jCopy (jSet a b dst) rest := rfl
    rw [hstep, ih (jSet a b dst) hnd.2]
    by_cases hk : a = k
    · subst hk
      rw [jLookup_none_keys a rest hnd.1, jLookup_jSet_self a b dst]
      simp [jLookup, Option.or]
    · rw [jLookup_jSet_other k a b (fun h => hk h.symm) dst]
      simp [jLookup, hk]

theorem injectSSLOptions_leaf_eq (fields : List (List Char × JValue))
    (ssl : List (List Char × JValue))
    (htype : jLookup typeKey fields = some (.str rpmStr))
    (hpkg : ∀ ps, jLookup pkgKey fields ≠ some (.arr ps)) :
    injectSSLOptions (.obj fields) ssl =
      match jLookup optionsKey fields with
      | some (.obj opts) =>
        match jLookup sslKey opts with
        | some (.obj existingSSL) =>
          .obj (jSet optionsKey
            (.obj (jSet sslKey (.obj (jCopy existingSSL ssl)) opts)) fields)
        | _ => .obj (jSet optionsKey (.obj [(sslKey, .obj ssl)]) fields)
      | _ => .obj (jSet optionsKey (.obj [(sslKey, .obj ssl)]) fields) := by
  unfold injectSSLOptions
  simp only [injectSSLOptionsAux]
  rcases hl : jLookup pkgKey fields with _ | pv
  · rw [htype]
    rfl
  · rcases pv with _ | b | l2 | st | ps | flds
    · rw [htype]; rfl
    · rw [htype]; rfl
    · rw [htype]; rfl
    · rw [htype]; rfl
    · exact absurd hl (hpkg ps)
    · rw [htype]; rfl

/-- Claim C10: on a leaf node (`"type": "rpm"`, no `"packages"` array), when
`options` holds an `ssl` map the other options keys are preserved and the new
ssl keys are copied into the existing ssl map, overwriting keys present in
both; when `options` exists without an `ssl` map the entire options value is
replaced by an object holding only `ssl`, discarding every other options key;
keys of the node other than `options` are never touched. -/
theorem injectSSLOptions_options_frame (fields ssl : List (List Char × JValue))
    (htype : jLookup typeKey fields = some (.str rpmStr))
    (hpkg : ∀ ps, jLookup pkgKey fields ≠ some (.arr ps))
    (hnodup : (ssl.map Prod.fst).Nodup) :
    (∀ opts oldSSL, jLookup optionsKey fields = some (.obj opts) →
      jLookup sslKey opts = some (.obj oldSSL) →
      injectSSLOptions (.obj fields) ssl =
        .obj (jSet optionsKey
          (.obj (jSet sslKey (.obj (jCopy oldSSL ssl)) opts)) fields) ∧
      (∀ k, k ≠ sslKey →
        jLookup k (jSet sslKey (.obj (jCopy oldSSL ssl)) opts) = jLookup k opts) ∧
      jLookup sslKey (jSet sslKey (.obj (jCopy oldSSL ssl)) opts) =
        some (.obj (jCopy oldSSL ssl)) ∧
      (∀ k, jLookup k (jCopy oldSSL ssl) =
        (jLookup k ssl).or (jLookup k oldSSL))) ∧
    (∀ opts, jLookup optionsKey fields = some (.obj opts) →
      (∀ m, jLookup sslKey opts ≠ some (.obj m)) →
      injectSSLOptions (.obj fields) ssl =
        .obj (jSet optionsKey (.obj [(sslKey, .obj ssl)]) fields) ∧
      (∀ k, k ≠ sslKey → jLookup k [(sslKey, .obj ssl)] = none)) ∧
    (∀ v' k, k ≠ optionsKey → jLookup k (jSet optionsKey v' fields) = jLookup k fields) ∧
    (∀ v', jLookup optionsKey (jSet optionsKey v' fields) = some v') := by
  refine ⟨?_, ?_, ?_, ?_⟩
  · intro opts oldSSL hopts hssl
    refine ⟨?_, ?_, ?_, ?_⟩
    · rw [injectSSLOptions_leaf_eq fields ssl htype hpkg, hopts]
      show (match jLookup sslKey opts with
            | some (.obj existingSSL) =>
              JValue.obj (jSet optionsKey
                (.obj (jSet sslKey (.obj (jCopy existingSSL ssl)) opts)) fields)
            | _ => JValue.obj (jSet optionsKey (.obj [(sslKey, .obj ssl)]) fields)) = _
      rw [hssl]
    · intro k hk
      exact jLookup_jSet_other k sslKey (.obj (jCopy oldSSL ssl)) hk opts
    · exact jLookup_jSet_self sslKey (.obj (jCopy oldSSL ssl)) opts
    · intro k
      exact jLookup_jCopy k ssl oldSSL hnodup
  · intro opts hopts hnossl
    refine ⟨?_, ?_⟩
    · rw [injectSSLOptions_leaf_eq fields ssl htype hpkg, hopts]
      show (match jLookup sslKey opts with
            | some (.obj existingSSL) =>
              JValue.obj (jSet optionsKey
                (.obj (jSet sslKey (.obj (jCopy existingSSL ssl)) opts)) fields)
            | _ => JValue.obj (jSet optionsKey (.obj [(sslKey, .obj ssl)]) fields)) = _
      rcases hssl : jLookup sslKey opts with _ | sv
      · rfl
      · rcases sv with _ | b | l2 | st | ps | m
        · rfl
        · rfl
        · rfl
        · rfl
        · rfl
        · exact absurd hssl (hnossl m)
    · intro k hk
      simp only [jLookup]
      rw [if_neg (fun h => hk h.symm)]
  · intro v' k hk
    exact jLookup_jSet_other k optionsKey v' hk fields
  · intro v'
    exact jLookup_jSet_self optionsKey v' fields

/-- Witness for C10: the merge case applied to the concrete leaf with
existing options `ssl.client_key = old` and `other = keep`. -/
theorem injectSSLOptions_options_frame_witness :
    injectSSLOptions (.obj rpmLeafFields) sslNewOptions =
      .obj (jSet optionsKey
        (.obj (jSet sslKey (.obj (jCopy sslOldOptions sslNewOptions)) rpmLeafOpts))
        rpmLeafFields) ∧
    (∀ k, k ≠ sslKey →
      jLookup k (jSet sslKey (.obj (jCopy sslOldOptions sslNewOptions)) rpmLeafOpts) =
        jLookup k rpmLeafOpts) ∧
    jLookup sslKey (jSet sslKey (.obj (jCopy sslOldOptions sslNewOptions)) rpmLeafOpts) =
      some (.obj (jCopy sslOldOptions sslNewOptions)) ∧
    (∀ k, jLookup k (jCopy sslOldOptions sslNewOptions) =
      (jLookup k sslNewOptions).or (jLookup k sslOldOptions)) :=
  (injectSSLOptions_options_frame rpmLeafFields sslNewOptions rfl
      (fun ps h => Option.noConfusion
        (show (none : Option JValue) = some (.arr ps) from h))
      (by decide)).1 rpmLeafOpts sslOldOptions rfl rfl
